import Mathlib

/-!
Shallow embedding of greedier_BATLZ.c (BAT-LZ greedier parser).

The program builds a suffix tree with Ukkonen's algorithm over the input
text plus a terminating zero sentinel, annotates it, and greedily parses
the text into cost-bounded phrases.  The C pointer structure is embedded
as an arena (a list of nodes addressed by index); machine unsigned ints
are embedded as Nat with the unsigned value 2^32-1 standing for the
stored value -1; the signed array D keeps genuine Int values.  Unbounded
loops take an explicit fuel argument and return in the Res monad, whose
value out marks fuel exhaustion and whose value abort marks the exit(1)
sites of the C code.  The segment tree implementation (segmCreate,
segmUpdate, cappedMax) is not part of the provided source file and is
modelled from the specification where so marked.
-/

namespace BATLZ

/-- The unsigned 32-bit value of -1; the annotation fields store it as the

unset sentinel that the specification reads as plus infinity. -/
def UMAX : Nat := 4294967295

/-- The modulus of the 64-bit unsigned DBL_WORD arithmetic. -/
def U64 : Nat := 18446744073709551616

/-- Annotation record of a suffix tree node (annot field in the C struct). -/
structure Annot where
  minMax : Nat
  optimisticMinMax : Nat
  textPos : Nat
  optimisticTextPos : Nat
deriving DecidableEq, Repr

instance : Inhabited Annot :=
  ⟨{ minMax := UMAX, optimisticMinMax := UMAX, textPos := 0, optimisticTextPos := 0 }⟩

/-- Suffix tree node; pointers become optional arena indices. -/
structure Node where
  sons : Option Nat
  right_sibling : Option Nat
  left_sibling : Option Nat
  suffix_link : Option Nat
  father : Option Nat
  path_position : Nat
  edge_label_start : Nat
  edge_label_end : Nat
  strDepth : Nat
  annot : Annot
deriving DecidableEq, Repr

instance : Inhabited Node :=
  ⟨{ sons := none, right_sibling := none, left_sibling := none, suffix_link := none,
     father := none, path_position := 0, edge_label_start := 0, edge_label_end := 0,
     strDepth := 0, annot := default }⟩

/-- The SUFFIX_TREE struct together with the global suffixless of the C file.

The field ts is the 1-based tree_string (index 0 is a dummy), costArray is U,
segm mirrors U for the spec-modelled segment tree, and D is the signed
distance array. -/
structure Tree where
  nodes : List Node
  ts : List Nat
  e : Nat
  length : Nat
  root : Nat
  suffixless : Option Nat
  COST : Nat
  costArray : List Nat
  segm : List Nat
  maxStrDepth : List Nat
  inversePointers : List Nat
  D : List Int
deriving DecidableEq, Repr

instance : Inhabited Tree :=
  ⟨{ nodes := [], ts := [], e := 0, length := 0, root := 0, suffixless := none,
     COST := 0, costArray := [], segm := [], maxStrDepth := [], inversePointers := [],
     D := [] }⟩

/-- Result monad: ok is normal completion, abort models the exit(1) sites,

out marks fuel exhaustion of the embedding. -/
inductive Res (α : Type) where
  | ok (a : α)
  | abort
  | out
deriving DecidableEq, Repr

/-- Sequencing on Res: abort and fuel exhaustion propagate. -/
def Res.bindR (r : Res α) (f : α → Res β) : Res β :=
  match r with
  | .ok a => f a
  | .abort => .abort
  | .out => .out

/-- The MATCH struct returned by ST_FindSubstring. -/
structure Match where
  length : Nat
  pos : Nat
deriving DecidableEq, Repr

/-- The RULE_2_TYPE enumeration. -/
inductive Rule2 where
  | new_son
  | split
deriving DecidableEq, Repr

/-- Arena read of a node (wild reads give the default node). -/
def Tree.node (t : Tree) (i : Nat) : Node :=
  t.nodes.getD i default

/-- Arena write of a node. -/
def Tree.setNode (t : Tree) (i : Nat) (n : Node) : Tree :=
  { t with nodes := t.nodes.set i n }

/-- Read of tree_string at a 1-based position. -/
def Tree.tsAt (t : Tree) (i : Nat) : Nat :=
  t.ts.getD i 0

/-- The function create_node: allocate a node with the given fields; the

annotation is uninitialized in C and receives the default here. -/
def create_node (t : Tree) (father : Option Nat) (start finish position : Nat) :
    Tree × Nat :=
  let nd : Node := { sons := none, right_sibling := none, left_sibling := none,
                     suffix_link := none, father := father, path_position := position,
                     edge_label_start := start, edge_label_end := finish,
                     strDepth := 0, annot := default }
  ({ t with nodes := t.nodes ++ [nd] }, t.nodes.length)

/-- Sibling scan of find_son, fuelled by the arena size. -/
def find_sonAux (t : Tree) (character : Nat) : Nat → Option Nat → Option Nat
  | _, none => none
  | 0, some _ => none
  | fuel+1, some i =>
      if t.tsAt (t.node i).edge_label_start = character then some i
      else find_sonAux t character fuel (t.node i).right_sibling

/-- The function find_son: first son of node whose edge starts with character. -/
def find_son (t : Tree) (node : Nat) (character : Nat) : Option Nat :=
  find_sonAux t character (t.nodes.length + 1) (t.node node).sons

/-- The function get_node_label_end: leaves use the virtual end e. -/
def get_node_label_end (t : Tree) (i : Nat) : Nat :=
  if (t.node i).sons = none then t.e else (t.node i).edge_label_end

/-- The function get_node_label_length. -/
def get_node_label_length (t : Tree) (i : Nat) : Nat :=
  get_node_label_end t i - (t.node i).edge_label_start + 1

/-- The function is_last_char_in_edge. -/
def is_last_char_in_edge (t : Tree) (i : Nat) (edge_pos : Nat) : Bool :=
  edge_pos = get_node_label_length t i - 1

/-- The function connect_siblings. -/
def connect_siblings (t : Tree) (left_sib right_sib : Option Nat) : Tree :=
  let t1 := match left_sib with
    | some li => t.setNode li { t.node li with right_sibling := right_sib }
    | none => t
  match right_sib with
    | some ri => t1.setNode ri { t1.node ri with left_sibling := left_sib }
    | none => t1

/-- Walk to the last sibling (used by the new_son case of rule 2). -/
def lastSibling (t : Tree) : Nat → Nat → Nat
  | 0, i => i
  | fuel+1, i => match (t.node i).right_sibling with
      | none => i
      | some j => lastSibling t fuel j

/-- First step of the split case of apply_extension_rule_2: create the new

internal node on the old father and shorten the incoming edge of node. -/
def rule2Split1 (t : Tree) (node edge_pos : Nat) : Tree × Nat :=
  let n := t.node node
  let pr := create_node t n.father n.edge_label_start (n.edge_label_start + edge_pos)
              n.path_position
  let t1 := pr.1
  let new_internal := pr.2
  let t2 := t1.setNode node
    { t1.node node with edge_label_start := n.edge_label_start + edge_pos + 1 }
  (t2, new_internal)

/-- Second step of the split case of apply_extension_rule_2: create the new

leaf under the new internal node and splice the internal node into the
sibling list in place of node. -/
def rule2Split2 (t : Tree) (node new_internal : Nat)
    (edge_label_begin edge_label_finish path_pos : Nat) : Tree × Nat :=
  let pr2 := create_node t (some new_internal) edge_label_begin edge_label_finish
               path_pos
  let t3 := pr2.1
  let new_leaf := pr2.2
  let t4 := connect_siblings t3 (t3.node node).left_sibling (some new_internal)
  let t5 := connect_siblings t4 (some new_internal) (t4.node node).right_sibling
  let t6 := t5.setNode node { t5.node node with left_sibling := none }
  (t6, new_leaf)

/-- Third step of the split case of apply_extension_rule_2: redirect the

father's son pointer, hang node under the new internal node and connect
node with the new leaf as siblings. -/
def rule2Split3 (t : Tree) (node new_internal new_leaf : Nat) : Tree :=
  let t7 := match (t.node new_internal).father with
    | some f =>
        if (t.node f).sons = some node
        then t.setNode f { t.node f with sons := some new_internal }
        else t
    | none => t
  let t8 := t7.setNode new_internal { t7.node new_internal with sons := some node }
  let t9 := t8.setNode node { t8.node node with father := some new_internal }
  connect_siblings t9 (some node) (some new_leaf)

/-- The function apply_extension_rule_2: either append a new leaf as the last

son of node, or split the incoming edge of node at edge_pos inserting a new
internal node with the new leaf as sibling. -/
def apply_extension_rule_2 (t : Tree) (node : Nat)
    (edge_label_begin edge_label_finish path_pos edge_pos : Nat) (type : Rule2) :
    Tree × Nat :=
  match type with
  | .new_son =>
    let pr := create_node t (some node) edge_label_begin edge_label_finish path_pos
    let t1 := pr.1
    let new_leaf := pr.2
    match (t1.node node).sons with
    | none => (t1, new_leaf)
    | some s0 =>
      let last := lastSibling t1 (t1.nodes.length + 1) s0
      (connect_siblings t1 (some last) (some new_leaf), new_leaf)
  | .split =>
    let pr := rule2Split1 t node edge_pos
    let t2 := pr.1
    let new_internal := pr.2
    let pr2 := rule2Split2 t2 node new_internal edge_label_begin edge_label_finish
                 path_pos
    let t6 := pr2.1
    let new_leaf := pr2.2
    (rule2Split3 t6 node new_internal new_leaf, new_internal)

/-- Result record of trace_single_edge. -/
structure TraceStep where
  nd : Nat
  edge_pos : Nat
  chars_found : Nat
  search_done : Bool
deriving DecidableEq, Repr

/-- Character scan of the no_skip branch of trace_single_edge; returns the

final edge_pos and chars_found together with a mismatch flag. -/
def tseScan (t : Tree) (node : Nat) (strb : Nat) :
    Nat → Nat → Nat → Nat × Nat × Bool
  | 0, ep, cf => (ep, cf, false)
  | rem+1, ep, cf =>
      if t.tsAt ((t.node node).edge_label_start + ep) ≠ t.tsAt (strb + ep)
      then (ep - 1, cf, true)
      else tseScan t node strb rem (ep+1) (cf+1)

/-- The function trace_single_edge. -/
def trace_single_edge (t : Tree) (node : Nat) (strb stre : Nat) (skipT : Bool) :
    TraceStep :=
  match find_son t node (t.tsAt strb) with
  | none =>
      { nd := node, edge_pos := get_node_label_length t node - 1, chars_found := 0,
        search_done := true }
  | some cont =>
    let len := get_node_label_length t cont
    let str_len := stre - strb + 1
    if skipT then
      if len ≤ str_len then
        { nd := cont, edge_pos := len - 1, chars_found := len,
          search_done := ¬ (len < str_len) }
      else
        { nd := cont, edge_pos := str_len - 1, chars_found := str_len,
          search_done := true }
    else
      let scanLen := min str_len len
      let r := tseScan t cont strb (scanLen - 1) 1 1
      if r.2.2 then
        { nd := cont, edge_pos := r.1, chars_found := r.2.1, search_done := true }
      else
        { nd := cont, edge_pos := r.1 - 1, chars_found := r.2.1,
          search_done := ¬ (r.2.1 < str_len) }

/-- Loop of trace_string, fuelled. -/
def trace_stringAux (t : Tree) (stre : Nat) (skipT : Bool) :
    Nat → Nat → Nat → Nat → Res (Nat × Nat × Nat)
  | 0, _, _, _ => .out
  | fuel+1, node, strb, acc =>
    let r := trace_single_edge t node strb stre skipT
    if r.search_done then .ok (r.nd, r.edge_pos, acc + r.chars_found)
    else trace_stringAux t stre skipT fuel r.nd (strb + r.chars_found)
      (acc + r.chars_found)

/-- The function trace_string: trace the string ts at positions strb..stre from

node, returning the final node, edge position and characters found. -/
def trace_string (t : Tree) (node strb stre : Nat) (skipT : Bool) (fuel : Nat) :
    Res (Nat × Nat × Nat) :=
  trace_stringAux t stre skipT fuel node strb 0

/-- The function follow_suffix_link on a position pair of node and edge_pos. -/
def follow_suffix_link (t : Tree) (pos : Nat × Nat) (fuel : Nat) :
    Res (Nat × Nat) :=
  if pos.1 = t.root then .ok pos else
  let n := t.node pos.1
  if n.suffix_link = none ∨ is_last_char_in_edge t pos.1 pos.2 = false then
    if n.father = some t.root then .ok (t.root, pos.2)
    else
      match n.father with
      | none => .out
      | some f =>
        match (t.node f).suffix_link with
        | none => .out
        | some sl =>
            (trace_string t sl n.edge_label_start
              (n.edge_label_start + pos.2) true fuel).bindR
            (fun r => .ok (r.1, r.2.1))
  else
    match n.suffix_link with
    | some sl => .ok (sl, get_node_label_length t sl - 1)
    | none => .out

/-- Set a suffix link and clear the suffixless marker (the rule 3 and new_son

sites of SEA clear the marker after linking). -/
def linkSuffixless (t : Tree) (target : Option Nat) (clear : Bool) : Tree :=
  match t.suffixless with
  | some sl =>
      let t1 := t.setNode sl { t.node sl with suffix_link := target }
      if clear then { t1 with suffixless := none } else t1
  | none => t

/-- Split path at the end of SEA: apply rule 2 in split mode, resolve the

pending suffix link to the new internal node, and either set the new node's
own suffix link to the root at once (label length one with the root as
father) or record it as the suffixless node. -/
def seaSplitStep (t : Tree) (nd strb stre path_pos edge_pos : Nat) : Tree × Nat :=
  let pr := apply_extension_rule_2 t nd strb stre path_pos edge_pos .split
  let t1 := pr.1
  let tmp := pr.2
  let t2 := linkSuffixless t1 (some tmp) false
  let t3 :=
    if get_node_label_length t2 tmp = 1 ∧ (t2.node tmp).father = some t2.root then
      { t2.setNode tmp { t2.node tmp with suffix_link := some t2.root } with
        suffixless := none }
    else { t2 with suffixless := some tmp }
  (t3, tmp)

/-- The function SEA (single extension algorithm).  Returns the updated tree,

the updated position, and the rule applied (rule_applied is only written on
the rule 3 and rule 2 paths, so the incoming value is returned otherwise,
as with the C out parameter). -/
def SEA (t : Tree) (pos : Nat × Nat) (strb stre : Nat) (rule_in : Nat)
    (after_rule_3 : Bool) (fuel : Nat) : Res (Tree × (Nat × Nat) × Nat) :=
  let path_pos := strb
  (if after_rule_3 then .ok pos else follow_suffix_link t pos fuel).bindR fun pos1 =>
  (if pos1.1 = t.root then
      (trace_string t t.root strb stre false fuel).bindR fun r =>
        .ok ((r.1, r.2.1), r.2.2, strb)
    else
      if is_last_char_in_edge t pos1.1 pos1.2 then
        match find_son t pos1.1 (t.tsAt stre) with
        | some tmp => .ok ((tmp, 0), 1, stre)
        | none => .ok (pos1, 0, stre)
      else
        if t.tsAt ((t.node pos1.1).edge_label_start + pos1.2 + 1) = t.tsAt stre
        then .ok ((pos1.1, pos1.2 + 1), 1, stre)
        else .ok (pos1, 0, stre) : Res ((Nat × Nat) × Nat × Nat)).bindR fun step =>
  let pos2 := step.1
  let chars_found := step.2.1
  let strb2 := step.2.2
  if chars_found = stre - strb2 + 1 then
    .ok (linkSuffixless t ((t.node pos2.1).father) true, pos2, 3)
  else
  if is_last_char_in_edge t pos2.1 pos2.2 ∨ pos2.1 = t.root then
    if (t.node pos2.1).sons ≠ none then
      let pr := apply_extension_rule_2 t pos2.1 (strb2 + chars_found) stre path_pos 0
                  .new_son
      .ok (linkSuffixless pr.1 (some pos2.1) true, pos2, 2)
    else
      .ok (t, pos2, rule_in)
  else
    let pr := seaSplitStep t pos2.1 (strb2 + chars_found) stre path_pos pos2.2
    .ok (pr.1, (pr.2, pos2.2), 2)

/-- Extension loop of SPA; threads extension, the repeat flag and the last

rule applied through the explicit extensions of one phase. -/
def SPAAux (phase : Nat) (fuel : Nat) :
    Nat → Tree → (Nat × Nat) → Nat → Nat → Bool → Res (Tree × (Nat × Nat) × Nat × Bool)
  | 0, _, _, _, _, _ => .out
  | cnt+1, t, pos, extension, rule_prev, rep =>
    if extension ≤ phase + 1 then
      (SEA t pos extension (phase+1) rule_prev rep fuel).bindR fun r =>
      if r.2.2 = 3 then .ok (r.1, r.2.1, extension, true)
      else SPAAux phase fuel cnt r.1 r.2.1 (extension+1) r.2.2 false
    else .ok (t, pos, extension, rep)

/-- The function SPA (single phase algorithm): set the virtual end e and run

the explicit extensions of the phase. -/
def SPA (t : Tree) (pos : Nat × Nat) (phase extension : Nat) (rep : Bool)
    (fuel : Nat) : Res (Tree × (Nat × Nat) × Nat × Bool) :=
  SPAAux phase fuel fuel { t with e := phase + 1 } pos extension 0 rep

mutual

/-- The function dfsForInversePointers: reset both minMax annotations to the

unset sentinel, record strDepth, and for leaves fill inversePointers and
maxStrDepth from the father's strDepth; returns the leaf count. -/
def dfsFIP (t : Tree) : Nat → Nat → Nat → Res (Tree × Nat)
  | 0, _, _ => .out
  | fuel+1, nodeId, depth =>
    let n := t.node nodeId
    if n.sons = none then
      let t1 := t.setNode nodeId
        { n with strDepth := depth,
                 annot := { minMax := UMAX, optimisticMinMax := UMAX,
                            textPos := n.path_position,
                            optimisticTextPos := n.path_position } }
      let fatherDepth := match n.father with
        | some f => (t1.node f).strDepth
        | none => 0
      let t2 := { t1 with
        inversePointers := t1.inversePointers.set n.path_position nodeId,
        maxStrDepth := t1.maxStrDepth.set n.path_position
          (n.path_position + fatherDepth - 1) }
      .ok (t2, 1)
    else
      let t1 := t.setNode nodeId
        { n with strDepth := depth,
                 annot := { minMax := UMAX, optimisticMinMax := UMAX,
                            textPos := 0, optimisticTextPos := 0 } }
      dfsKids t1 fuel n.sons depth

/-- Child iteration of dfsForInversePointers along the sibling list; the

child depth adds the stored edge length of the child (which for a leaf is
its stale creation-time edge_label_end, exactly as the C code reads it, in
64-bit unsigned arithmetic: a stale leaf end one below its start makes the
subtraction wrap and the computed depth stays the father depth). -/
def dfsKids (t : Tree) : Nat → Option Nat → Nat → Res (Tree × Nat)
  | 0, _, _ => .out
  | _, none, _ => .ok (t, 0)
  | fuel+1, some child, depth =>
    let c := t.node child
    (dfsFIP t fuel child
      ((depth + (U64 + c.edge_label_end - c.edge_label_start) + 1) % U64)).bindR
    fun r =>
      (dfsKids r.1 fuel (r.1.node child).right_sibling depth).bindR fun r2 =>
        .ok (r2.1, r.2 + r2.2)

end

/-- Phase loop of ST_CreateTree. -/
def phaseLoop (fuel : Nat) :
    Nat → Nat → Tree → (Nat × Nat) → Nat → Bool → Res (Tree × (Nat × Nat) × Nat × Bool)
  | 0, _, t, pos, extension, rep => .ok (t, pos, extension, rep)
  | cnt+1, phase, t, pos, extension, rep =>
    (SPA t pos phase extension rep fuel).bindR fun r =>
      phaseLoop fuel cnt (phase+1) r.1 r.2.1 r.2.2.1 r.2.2.2

/-- Prefix-maximum pass over maxStrDepth (the loop after the DFS). -/
def msdPassAux : Nat → Nat → Tree → Tree
  | _, 0, t => t
  | i, cnt+1, t =>
    let t1 :=
      if t.maxStrDepth.getD (i-1) 0 > t.maxStrDepth.getD i 0
      then { t with maxStrDepth := t.maxStrDepth.set i (t.maxStrDepth.getD (i-1) 0) }
      else t
    msdPassAux (i+1) cnt t1

/-- The tree state of ST_CreateTree before the Ukkonen phases: the allocated

arrays, the root node and the first leaf of the longest path (phase 0). -/
def initialTree (s : List Nat) : Tree :=
  let len := s.length
  let t0 : Tree := {
    nodes := [], ts := 0 :: (s ++ [0]), e := 0, length := len + 1, root := 0,
    suffixless := none, COST := 0,
    costArray := List.replicate (len+2) (len+1),
    segm := List.replicate (len+2) (len+1),
    maxStrDepth := List.replicate (len+2) 0,
    inversePointers := List.replicate (len+2) 0,
    D := [] }
  let pr := create_node t0 none 0 0 0
  let t1 := pr.1
  let rootId := pr.2
  let pr2 := create_node t1 (some rootId) 1 t1.length 1
  let t2 := pr2.1
  t2.setNode rootId { t2.node rootId with sons := some pr2.2 }

/-- The function ST_CreateTree: create the initial tree, run Ukkonen's

phases, run the DFS, make maxStrDepth monotone and initialize D to -1.
The COST field is set later by the caller, as in main. -/
def ST_CreateTree (s : List Nat) (fuel : Nat) : Res Tree :=
  (phaseLoop fuel ((initialTree s).length - 2) 2 (initialTree s)
    ((initialTree s).root, 0) 2 false).bindR fun r =>
  (dfsFIP r.1 fuel r.1.root 0).bindR fun r2 =>
  let t6 := msdPassAux 2 (r2.1.length - 1) r2.1
  .ok { t6 with D := List.replicate (t6.length + 1) (-1 : Int) }

/-- Modelled from the spec: the range maximum of the cost mirror over the

positions l..r (the maximum of U[l..r]); an empty range gives 0. -/
def rangeMaxAux (a : List Nat) : Nat → Nat → Nat
  | _, 0 => 0
  | l, cnt+1 => max (a.getD l 0) (rangeMaxAux a (l+1) cnt)

/-- Modelled from the spec: range maximum of U over l..r. -/
def rangeMax (a : List Nat) (l r : Nat) : Nat :=
  rangeMaxAux a l (r + 1 - l)

/-- Modelled from the spec: the segment tree query cappedMax(S, l, r, C) of

the missing segment tree source file; the spec defines it to return the
maximum of U[l..r], but capped at C when that maximum reaches C. -/
def cappedMax (segm : List Nat) (l r C : Nat) : Nat :=
  min C (rangeMax segm l r)

/-- Modelled from the spec: the segment tree point update segmUpdate(S, i, v)

of the missing segment tree source file; S always reflects U. -/
def segmUpdate (segm : List Nat) (i v : Nat) : List Nat :=
  segm.set i v

/-- Character scan of one edge inside ST_FindSubstring; rem counts the

remaining pattern characters P - j. -/
def edgeScan (t : Tree) (W : Nat → Nat) (nle : Nat) :
    Nat → Nat → Nat → Nat × Nat
  | 0, j, k => (j, k)
  | rem+1, j, k =>
      if k ≤ nle ∧ t.tsAt k = W j then edgeScan t W nle rem (j+1) (k+1)
      else (j, k)

/-- Descent loop of ST_FindSubstring. -/
def ST_FindSubstringAux (t : Tree) (W : Nat → Nat) (P : Nat) :
    Nat → Option Nat → Nat → Match → Res Match
  | _, none, _, cm => .ok cm
  | 0, some _, _, _ => .out
  | fuel+1, some node, j, cm =>
    let an := (t.node node).annot
    if an.optimisticMinMax = UMAX then .ok cm
    else if an.optimisticMinMax = t.COST then
      .ok (if t.D.getD an.optimisticTextPos (-1) > (cm.length : Int)
           then { length := (t.D.getD an.optimisticTextPos (-1)).toNat,
                  pos := an.optimisticTextPos }
           else cm)
    else
      let nle := get_node_label_end t node
      let sc := edgeScan t W nle (P - j) j (t.node node).edge_label_start
      let j2 := sc.1
      let k2 := sc.2
      if an.optimisticTextPos ≠ 0 then
        let cm2 : Match := { length := j2, pos := an.optimisticTextPos }
        if j2 = P then .ok cm2
        else if k2 > nle then
          ST_FindSubstringAux t W P fuel (find_son t node (W j2)) j2 cm2
        else .ok cm2
      else .abort

/-- The function ST_FindSubstring: longest admissible match of the pattern W

of length P, descending from the root using the optimistic annotations. -/
def ST_FindSubstring (t : Tree) (W : Nat → Nat) (P : Nat) : Res Match :=
  ST_FindSubstringAux t W P (t.nodes.length + 1) (find_son t t.root (W 0)) 0
    { length := 0, pos := 0 }

/-- Sibling fold of getMinMaxOfChildren. -/
def getMMAux (t : Tree) : Nat → Option Nat → Nat → Nat
  | _, none, res => res
  | 0, some _, res => res
  | fuel+1, some cur, res =>
    let res2 :=
      if (t.node res).annot.optimisticMinMax > (t.node cur).annot.optimisticMinMax ∨
         ((t.node res).annot.optimisticMinMax = (t.node cur).annot.optimisticMinMax ∧
          t.D.getD (t.node res).annot.optimisticTextPos (-1) <
            t.D.getD (t.node cur).annot.optimisticTextPos (-1))
      then cur else res
    getMMAux t fuel (t.node cur).right_sibling res2

/-- The function getMinMaxOfChildren: the son minimizing optimisticMinMax,

ties broken towards the larger D value of its optimisticTextPos. -/
def getMinMaxOfChildren (t : Tree) (node : Nat) : Nat :=
  match (t.node node).sons with
  | none => 0
  | some s => getMMAux t (t.nodes.length + 1) (some s) s

/-- Write the committed annotation pair of a node. -/
def setMinMax (t : Tree) (i v tp : Nat) : Tree :=
  let n := t.node i
  t.setNode i { n with annot := { n.annot with minMax := v, textPos := tp } }

/-- Write the optimistic annotation pair of a node. -/
def setOptimistic (t : Tree) (i v tp : Nat) : Tree :=
  let n := t.node i
  t.setNode i
    { n with annot := { n.annot with optimisticMinMax := v, optimisticTextPos := tp } }

/-- The candidate cost computed by the ancestor step of

changeAnnotationFromLeaf: the cost array entry indexed by the result of
cappedMax over U[textPos..textPos+d-1], exactly as written at the call site. -/
def candidateCost (t : Tree) (textPos d : Nat) : Nat :=
  t.costArray.getD (cappedMax t.segm textPos (textPos + d - 1) t.COST) 0

/-- Committed annotation update of one ancestor step of

changeAnnotationFromLeaf (the branch guarded by the phrase horizon). -/
def caflCommit (textPos finalPos : Nat) (parent : Nat) (t : Tree) : Tree :=
  if textPos + (t.node parent).strDepth - 1 ≤ finalPos then
    let cost := candidateCost t textPos (t.node parent).strDepth
    if (t.node parent).annot.minMax = t.COST then
      if cost < t.COST then setMinMax t parent cost textPos
      else
        if t.D.getD textPos (-1) ≠ -1 ∧
           t.D.getD textPos (-1) > t.D.getD (t.node parent).annot.textPos (-1)
        then setMinMax t parent cost textPos
        else t
    else
      if cost < (t.node parent).annot.minMax
      then setMinMax t parent cost textPos
      else t
  else t

/-- Optimistic annotation update of one ancestor step of

changeAnnotationFromLeaf, using the best child newMinMaxHolder. -/
def caflOptimistic (textPos : Nat) (minMaxOfRange newMinMaxHolder parent : Nat)
    (t1 : Tree) : Tree :=
  if (t1.node parent).annot.optimisticMinMax = UMAX then
    setOptimistic t1 parent minMaxOfRange textPos
  else
    if (t1.node parent).annot.optimisticMinMax = t1.COST then
      if (t1.node newMinMaxHolder).annot.optimisticMinMax = t1.COST then
        if t1.D.getD (t1.node newMinMaxHolder).annot.optimisticTextPos (-1) >
           t1.D.getD (t1.node parent).annot.optimisticTextPos (-1)
        then setOptimistic t1 parent
               (t1.node newMinMaxHolder).annot.optimisticMinMax
               (t1.node newMinMaxHolder).annot.optimisticTextPos
        else setOptimistic t1 parent (t1.node parent).annot.minMax
               (t1.node parent).annot.textPos
      else setOptimistic t1 parent
             (t1.node newMinMaxHolder).annot.optimisticMinMax
             (t1.node newMinMaxHolder).annot.optimisticTextPos
    else
      if (t1.node newMinMaxHolder).annot.optimisticMinMax <
         (t1.node parent).annot.minMax
      then setOptimistic t1 parent
             (t1.node newMinMaxHolder).annot.optimisticMinMax
             (t1.node newMinMaxHolder).annot.optimisticTextPos
      else setOptimistic t1 parent (t1.node parent).annot.minMax
             (t1.node parent).annot.textPos

/-- One full ancestor step of changeAnnotationFromLeaf: the best child is

read first, then the committed update, then the optimistic update. -/
def caflStep (textPos finalPos : Nat) (minMaxOfRange parent : Nat) (t : Tree) :
    Tree :=
  let newMinMaxHolder := getMinMaxOfChildren t parent
  caflOptimistic textPos minMaxOfRange newMinMaxHolder parent
    (caflCommit textPos finalPos parent t)

/-- Ancestor walk of changeAnnotationFromLeaf, fuelled by the arena size. -/
def caflWalk (textPos finalPos : Nat) (len : Int) (minMaxOfRange : Nat) :
    Nat → Option Nat → Tree → Tree
  | _, none, t => t
  | 0, some _, t => t
  | fuel+1, some parent, t =>
    if ((t.node parent).strDepth : Int) > len then
      let t2 := caflStep textPos finalPos minMaxOfRange parent t
      caflWalk textPos finalPos len minMaxOfRange fuel ((t2.node parent).father) t2
    else t

/-- The function changeAnnotationFromLeaf: update the leaf of textPos and

walk its ancestors while their strDepth exceeds len, refreshing committed
and optimistic annotations. -/
def changeAnnotationFromLeaf (textPos finalPos : Nat) (len : Int)
    (minMaxOfRange distToC : Nat) (t : Tree) : Tree :=
  let leafId := t.inversePointers.getD textPos 0
  let leaf := t.node leafId
  let newAnnot : Annot :=
    { leaf.annot with minMax := minMaxOfRange, optimisticMinMax := minMaxOfRange }
  let t1 :=
    if minMaxOfRange > leaf.annot.minMax ∨ leaf.annot.minMax = UMAX then
      t.setNode leafId { leaf with annot := newAnnot }
    else t
  caflWalk textPos finalPos len minMaxOfRange (t1.nodes.length + 1)
    ((t1.node leafId).father) t1

/-- Downward loop of propagateAnnotation over i, carrying the running

maximum currentMinMaxOfRange. -/
def propagateAux (textPos len : Nat) : Nat → Nat → Tree → Tree
  | 0, _, t => t
  | i+1, cmm, t =>
    let cmm2 := if cmm < t.costArray.getD (i+1) 0 then t.costArray.getD (i+1) 0
                else cmm
    if t.maxStrDepth.getD (i+1) 0 < textPos then t
    else propagateAux textPos len i cmm2
           (changeAnnotationFromLeaf (i+1) (textPos+len)
             ((textPos : Int) - ((i+1 : Nat) : Int)) cmm2 0 t)

/-- The function propagateAnnotation. -/
def propagateAnnotation (textPos len : Nat) (t : Tree) : Tree :=
  propagateAux textPos len (textPos + len) 0 t

/-- An emitted phrase: the printed triple of 0-based source, length and

literal byte. -/
abbrev Phrase := Int × Nat × Nat

/-- Backfill loop of the D array when a position reaches cost C: walk cp

down to just above the previous C position, setting D of cp from cp+1. -/
def dBackfill (stop : Nat) : Nat → List Int → List Int
  | 0, d => d
  | cp+1, d =>
      if cp+1 > stop then dBackfill stop cp (d.set (cp+1) (d.getD (cp+2) (-1) + 1))
      else d

/-- One step of the body loop of a parseBLZ iteration: write the cost of

byte i of the phrase from its source plus one, maintain D and the previous
C position when the cost reaches C, update the segment mirror, and abort
when the written cost (read back from the array) exceeds C. -/
def parseBodyStep (textPos src i popc k : Nat) (t : Tree) : Res (Tree × Nat) :=
  let t1 : Tree := { t with
    costArray := t.costArray.set (textPos+i) (t.costArray.getD (src+k) 0 + 1) }
  let v : Nat := t1.costArray.getD (textPos+i) 0
  let p2 :=
    if v = t1.COST then
      ({ t1 with D := dBackfill popc (textPos+i-1) (t1.D.set (textPos+i) 0) },
       textPos+i)
    else (t1, popc)
  let t3 := { p2.1 with segm := segmUpdate p2.1.segm (textPos+i) v }
  if v > t3.COST then .abort else .ok (t3, p2.2)

/-- Body loop of one parseBLZ iteration: for each phrase byte run one body

step and advance k with the self-overlap wrap. -/
def parseBody (textPos src : Nat) :
    Nat → Nat → Nat → Nat → Tree → Res (Tree × Nat)
  | 0, _, _, popc, t => .ok (t, popc)
  | rem+1, i, k, popc, t =>
    (parseBodyStep textPos src i popc k t).bindR fun s =>
      parseBody textPos src rem (i+1)
        (if src + (k+1) = textPos then 0 else k+1) s.2 s.1

/-- One iteration of the parse loop after the query: body cost updates, the

zero-cost literal, annotation propagation, and the emitted phrase. -/
def parseIter (t : Tree) (textPos popc : Nat) (m : Match) :
    Res (Tree × Nat × Phrase) :=
  (parseBody textPos m.pos m.length 0 0 popc t).bindR fun r =>
  let t2 := { r.1 with costArray := r.1.costArray.set (textPos + m.length) 0 }
  let t3 := { t2 with segm := segmUpdate t2.segm (textPos + m.length) 0 }
  let t4 := propagateAnnotation textPos m.length t3
  .ok (t4, r.2, ((m.pos : Int) - 1, m.length, t4.tsAt (textPos + m.length)))

/-- Main loop of parseBLZ; besides the phrase list and the phrase count it

returns the log of the query calls made, each logged as the pair of the
position argument W = T + textPos and the length argument P as passed. -/
def parseLoop :
    Nat → Nat → Nat → Nat → List Phrase → List (Nat × Nat) → Tree →
    Res (Tree × List Phrase × Nat × List (Nat × Nat))
  | 0, _, _, _, _, _, _ => .out
  | fuel+1, textPos, popc, z, acc, qacc, t =>
    if textPos ≤ t.length then
      (ST_FindSubstring t (fun j => t.tsAt (textPos + j)) t.length).bindR fun m =>
      (parseIter t textPos popc m).bindR fun r =>
      parseLoop fuel (textPos + m.length + 1) r.2.1 (z+1) (acc ++ [r.2.2])
        (qacc ++ [(textPos, t.length)]) r.1
    else .ok (t, acc, z, qacc)

/-- The function parseBLZ: parse from position 1 while textPos is at most

the text length (sentinel included). -/
def parseBLZ (t : Tree) (fuel : Nat) :
    Res (Tree × List Phrase × Nat × List (Nat × Nat)) :=
  parseLoop fuel 1 0 0 [] [] t

/-- The pipeline of main after a successful load: build the tree, set COST

and parse. -/
def runBATLZ (s : List Nat) (C : Nat) (fuel : Nat) :
    Res (Tree × List Phrase × Nat × List (Nat × Nat)) :=
  (ST_CreateTree s fuel).bindR fun t =>
  parseBLZ { t with COST := C } fuel

/-- Exit code model of main: missing arguments exit(1); an input file that

cannot be opened prints a message and returns 0; allocation failure prints
a message and calls exit(0); a zero byte inside the payload exits 1; the
exit(1) sites reached during parsing give 1; otherwise main returns 0. -/
def mainExit (argsPresent fileOpens allocOk : Bool) (payload : List Nat)
    (C : Nat) (fuel : Nat) : Res Nat :=
  if ¬ argsPresent then .ok 1
  else if ¬ fileOpens then .ok 0
  else if ¬ allocOk then .ok 0
  else if payload.any (fun b => b = 0) then .ok 1
  else
    match runBATLZ payload C fuel with
    | .ok _ => .ok 0
    | .abort => .ok 1
    | .out => .out

instance : Inhabited Match := ⟨{ length := 0, pos := 0 }⟩

/-- Normal-completion test of a result. -/
def Res.isOk : Res α → Bool
  | .ok _ => true
  | .abort => false
  | .out => false

/-- Tree of a construction result (default tree on failure). -/
def crTree : Res Tree → Tree
  | .ok t => t
  | _ => default

/-- Tree component of a parse result. -/
def prT : Res (Tree × List Phrase × Nat × List (Nat × Nat)) → Tree
  | .ok r => r.1
  | _ => default

/-- Phrase list of a parse result. -/
def prPh : Res (Tree × List Phrase × Nat × List (Nat × Nat)) → List Phrase
  | .ok r => r.2.1
  | _ => []

/-- Query log of a parse result. -/
def prQ : Res (Tree × List Phrase × Nat × List (Nat × Nat)) → List (Nat × Nat)
  | .ok r => r.2.2.2
  | _ => []

/-- Tree component of a parse iteration result. -/
def piT : Res (Tree × Nat × Phrase) → Tree
  | .ok r => r.1
  | _ => default

/-- Previous-C position component of a parse iteration result. -/
def piPopc : Res (Tree × Nat × Phrase) → Nat
  | .ok r => r.2.1
  | _ => 0

/-- Phrase component of a parse iteration result. -/
def piPh : Res (Tree × Nat × Phrase) → Phrase
  | .ok r => r.2.2
  | _ => (0, 0, 0)

/-- Match of a query result. -/
def mOf : Res Match → Match
  | .ok m => m
  | _ => default

/-- The value of the loop variable k of the parse body before step i when it

starts at k: k advances by one each step and wraps to 0 whenever src + k
reaches textPos. -/
def kseqFrom (src textPos k : Nat) : Nat → Nat
  | 0 => k
  | j+1 =>
      if src + (kseqFrom src textPos k j + 1) = textPos then 0
      else kseqFrom src textPos k j + 1

/-- The value of k before step i of a phrase body that starts with k = 0. -/
def kseq (src textPos : Nat) (i : Nat) : Nat :=
  kseqFrom src textPos 0 i

/-- Specification-side call list of propagateAnnotation: descending positions

i from textPos+len with the range maximum of U[i..textPos+len] as the
minMaxOfRange argument, cut at the first i whose maxStrDepth is below
textPos.  Stated by the spec and compared with the code in the call
structure theorem. -/
def propagateCallsSpec (t : Tree) (textPos r : Nat) : Nat → List (Nat × Nat)
  | 0 => []
  | i+1 =>
      if t.maxStrDepth.getD (i+1) 0 < textPos then []
      else (i+1, rangeMax t.costArray (i+1) r) :: propagateCallsSpec t textPos r i

/-- Concatenation of the referenced substring and the literal of each phrase

in emission order, over the 1-based text ts: for a phrase (src, L, lit) in
0-based source form this appends ts at positions src+1..src+L and then lit. -/
def reconstructPhrases (ts : List Nat) (phs : List Phrase) : List Nat :=
  phs.foldl (fun acc ph =>
    acc ++ (List.range ph.2.1).map (fun k => ts.getD (ph.1 + (k : Int) + 1).toNat 0)
        ++ [ph.2.2]) []

/-- The suffix tree state the program reaches for the text aabab right after

ST_CreateTree, with COST set to 1: the transcription of the construction
output (the compiled evaluation of ST_CreateTree [97,97,98,97,98] with
COST set to 1 yields exactly this value). -/
def aababTree : Tree := {
  nodes := [
    { sons := some 2, right_sibling := none, left_sibling := none, suffix_link := none, father := none, path_position := 0, edge_label_start := 0, edge_label_end := 0, strDepth := 0, annot := { minMax := UMAX, optimisticMinMax := UMAX, textPos := 0, optimisticTextPos := 0 } },
    { sons := none, right_sibling := some 5, left_sibling := none, suffix_link := none, father := some 2, path_position := 1, edge_label_start := 2, edge_label_end := 6, strDepth := 6, annot := { minMax := UMAX, optimisticMinMax := UMAX, textPos := 1, optimisticTextPos := 1 } },
    { sons := some 1, right_sibling := some 7, left_sibling := none, suffix_link := some 0, father := some 0, path_position := 1, edge_label_start := 1, edge_label_end := 1, strDepth := 1, annot := { minMax := UMAX, optimisticMinMax := UMAX, textPos := 0, optimisticTextPos := 0 } },
    { sons := none, right_sibling := some 6, left_sibling := none, suffix_link := none, father := some 5, path_position := 2, edge_label_start := 4, edge_label_end := 3, strDepth := 2, annot := { minMax := UMAX, optimisticMinMax := UMAX, textPos := 2, optimisticTextPos := 2 } },
    { sons := none, right_sibling := some 8, left_sibling := none, suffix_link := none, father := some 7, path_position := 3, edge_label_start := 4, edge_label_end := 3, strDepth := 1, annot := { minMax := UMAX, optimisticMinMax := UMAX, textPos := 3, optimisticTextPos := 3 } },
    { sons := some 3, right_sibling := none, left_sibling := some 1, suffix_link := some 7, father := some 2, path_position := 2, edge_label_start := 3, edge_label_end := 3, strDepth := 2, annot := { minMax := UMAX, optimisticMinMax := UMAX, textPos := 0, optimisticTextPos := 0 } },
    { sons := none, right_sibling := none, left_sibling := some 3, suffix_link := none, father := some 5, path_position := 4, edge_label_start := 6, edge_label_end := 6, strDepth := 3, annot := { minMax := UMAX, optimisticMinMax := UMAX, textPos := 4, optimisticTextPos := 4 } },
    { sons := some 4, right_sibling := some 9, left_sibling := some 2, suffix_link := some 0, father := some 0, path_position := 3, edge_label_start := 3, edge_label_end := 3, strDepth := 1, annot := { minMax := UMAX, optimisticMinMax := UMAX, textPos := 0, optimisticTextPos := 0 } },
    { sons := none, right_sibling := none, left_sibling := some 4, suffix_link := none, father := some 7, path_position := 5, edge_label_start := 6, edge_label_end := 6, strDepth := 2, annot := { minMax := UMAX, optimisticMinMax := UMAX, textPos := 5, optimisticTextPos := 5 } },
    { sons := none, right_sibling := none, left_sibling := some 7, suffix_link := none, father := some 0, path_position := 6, edge_label_start := 6, edge_label_end := 6, strDepth := 1, annot := { minMax := UMAX, optimisticMinMax := UMAX, textPos := 6, optimisticTextPos := 6 } }
  ],
  ts := [0,97,97,98,97,98,0],
  e := 6, length := 6, root := 0,
  suffixless := none, COST := 1,
  costArray := [6,6,6,6,6,6,6],
  segm := [6,6,6,6,6,6,6],
  maxStrDepth := [0,1,3,3,5,5,5],
  inversePointers := [0,1,3,4,6,8,9],
  D := [-1,-1,-1,-1,-1,-1,-1] }

/-- First query of parseBLZ on the aabab tree with C = 1 (at textPos 1). -/
def aababMatch0 : Match :=
  mOf (ST_FindSubstring aababTree (fun j => aababTree.tsAt (1 + j)) aababTree.length)

/-- First parse iteration on the aabab tree with C = 1. -/
def aababStep0 : Res (Tree × Nat × Phrase) := parseIter aababTree 1 0 aababMatch0

/-- State after the first parse iteration on aabab with C = 1. -/
def aababTree1 : Tree := piT aababStep0

/-- Second query of parseBLZ on aabab with C = 1 (at textPos 2). -/
def aababMatch1 : Match :=
  mOf (ST_FindSubstring aababTree1 (fun j => aababTree1.tsAt (2 + j)) aababTree1.length)

/-- Second parse iteration on aabab with C = 1. -/
def aababStep1 : Res (Tree × Nat × Phrase) :=
  parseIter aababTree1 2 (piPopc aababStep0) aababMatch1

/-- State after the second parse iteration on aabab with C = 1. -/
def aababTree2 : Tree := piT aababStep1

/-- The aabab suffix tree state with cost bound 2 (a bound under which the

whole parse completes normally). -/
def aababC2 : Tree := { aababTree with COST := 2 }

/-- A three node tree state (root, one internal node, one leaf) with cost

array U = [9,5,9,9], cost bound 3 and the leaf of position 1 below the
internal node; exhibits the candidate cost computation of the annotation
walk. -/
def fiveTree : Tree := {
  nodes := [
    { sons := some 1, right_sibling := none, left_sibling := none, suffix_link := none, father := none, path_position := 0, edge_label_start := 0, edge_label_end := 0, strDepth := 0, annot := { minMax := UMAX, optimisticMinMax := UMAX, textPos := 0, optimisticTextPos := 0 } },
    { sons := some 2, right_sibling := none, left_sibling := none, suffix_link := none, father := some 0, path_position := 1, edge_label_start := 1, edge_label_end := 1, strDepth := 1, annot := { minMax := UMAX, optimisticMinMax := UMAX, textPos := 0, optimisticTextPos := 0 } },
    { sons := none, right_sibling := none, left_sibling := none, suffix_link := none, father := some 1, path_position := 1, edge_label_start := 2, edge_label_end := 3, strDepth := 2, annot := { minMax := UMAX, optimisticMinMax := UMAX, textPos := 1, optimisticTextPos := 1 } }
  ],
  ts := [0,97,97,0],
  e := 3, length := 3, root := 0,
  suffixless := none, COST := 3,
  costArray := [9,5,9,9],
  segm := [9,5,9,9],
  maxStrDepth := [0,3,3,3],
  inversePointers := [0,2,0,0],
  D := [-1,-1,-1,-1] }

/-- The non-arena components of a tree state, bundled for the preservation

lemmas about the annotation walk (which only writes nodes). -/
def Tree.globals (t : Tree) :
    List Nat × Nat × Nat × Nat × Option Nat × Nat × List Nat × List Nat ×
    List Nat × List Nat × List Int :=
  (t.ts, t.e, t.length, t.root, t.suffixless, t.COST, t.costArray, t.segm,
   t.maxStrDepth, t.inversePointers, t.D)

/-- Every node of the arena still carries the unset annotation sentinels. -/
def AllUnset (t : Tree) : Prop :=
  ∀ i, (t.node i).annot.minMax = UMAX ∧ (t.node i).annot.optimisticMinMax = UMAX

/-! Theorems. -/

/-! Preservation lemmas: list access, globals through the annotation walk. -/

/-- Reading a list after a point write. -/
theorem listGetD_set (l : List α) (i j : Nat) (a d : α) :
    (l.set i a).getD j d =
      if i = j then (if j < l.length then a else d) else l.getD j d := by
  induction l generalizing i j with
  | nil => simp [List.set]
  | cons x xs ih =>
    cases i with
    | zero => cases j <;> simp [List.set, List.getD]
    | succ i2 =>
      cases j with
      | zero => simp [List.set, List.getD]
      | succ j2 => simpa [List.set, List.getD, Nat.succ_lt_succ_iff] using ih i2 j2

/-- Reading a list extended by one element at the back. -/
theorem listGetD_append (l : List α) (n : α) (j : Nat) (d : α) :
    (l ++ [n]).getD j d =
      if j < l.length then l.getD j d else if j = l.length then n else d := by
  induction l generalizing j with
  | nil => cases j <;> simp [List.getD]
  | cons x xs ih =>
    cases j with
    | zero => simp [List.getD]
    | succ j2 => simpa [List.getD, Nat.succ_lt_succ_iff] using ih j2

theorem globals_setNode (t : Tree) (i : Nat) (n : Node) :
    (t.setNode i n).globals = t.globals := rfl

theorem globals_setMinMax (t : Tree) (i v tp : Nat) :
    (setMinMax t i v tp).globals = t.globals := rfl

theorem globals_setOptimistic (t : Tree) (i v tp : Nat) :
    (setOptimistic t i v tp).globals = t.globals := rfl

theorem globals_caflCommit (textPos finalPos parent : Nat) (t : Tree) :
    (caflCommit textPos finalPos parent t).globals = t.globals := by
  unfold caflCommit
  dsimp only
  split
  · split
    · split
      · rfl
      · split <;> rfl
    · split <;> rfl
  · rfl

theorem globals_caflOptimistic (textPos mmr nmh parent : Nat) (t : Tree) :
    (caflOptimistic textPos mmr nmh parent t).globals = t.globals := by
  unfold caflOptimistic
  split
  · rfl
  · split
    · split
      · split <;> rfl
      · rfl
    · split <;> rfl

theorem globals_caflStep (textPos finalPos mmr parent : Nat) (t : Tree) :
    (caflStep textPos finalPos mmr parent t).globals = t.globals := by
  unfold caflStep
  exact (globals_caflOptimistic _ _ _ _ _).trans (globals_caflCommit _ _ _ _)

theorem globals_caflWalk (textPos finalPos : Nat) (len : Int) (mmr : Nat) :
    ∀ (fuel : Nat) (op : Option Nat) (t : Tree),
      (caflWalk textPos finalPos len mmr fuel op t).globals = t.globals := by
  intro fuel
  induction fuel with
  | zero => intro op t; cases op <;> rfl
  | succ n ih =>
    intro op t
    cases op with
    | none => rfl
    | some parent =>
      show (caflWalk textPos finalPos len mmr (n+1) (some parent) t).globals = _
      rw [caflWalk]
      split
      · exact (ih _ _).trans (globals_caflStep _ _ _ _ _)
      · rfl

theorem globals_changeAnnotation (textPos finalPos : Nat) (len : Int)
    (mmr distToC : Nat) (t : Tree) :
    (changeAnnotationFromLeaf textPos finalPos len mmr distToC t).globals =
      t.globals := by
  unfold changeAnnotationFromLeaf
  refine (globals_caflWalk _ _ _ _ _ _ _).trans ?_
  split <;> rfl

theorem globals_propagateAux (textPos len : Nat) :
    ∀ (i : Nat) (cmm : Nat) (t : Tree),
      (propagateAux textPos len i cmm t).globals = t.globals := by
  intro i
  induction i with
  | zero => intro cmm t; rfl
  | succ i2 ih =>
    intro cmm t
    rw [propagateAux]
    split
    · rfl
    · exact (ih _ _).trans ( globals_changeAnnotation _ _ _ _ _ _)

theorem globals_propagate (textPos len : Nat) (t : Tree) :
    ( propagateAnnotation textPos len t).globals = t.globals :=
  globals_propagateAux textPos len _ _ _

/-- Field extraction from a globals equality. -/
theorem globals_fields {t u : Tree} (h : u.globals = t.globals) :
    u.ts = t.ts ∧ u.e = t.e ∧ u.length = t.length ∧ u.root = t.root ∧
    u.suffixless = t.suffixless ∧ u.COST = t.COST ∧ u.costArray = t.costArray ∧
    u.segm = t.segm ∧ u.maxStrDepth = t.maxStrDepth ∧
    u.inversePointers = t.inversePointers ∧ u.D = t.D := by
  unfold Tree.globals at h
  exact ⟨congrArg (·.1) h, congrArg (·.2.1) h, congrArg (·.2.2.1) h,
    congrArg (·.2.2.2.1) h, congrArg (·.2.2.2.2.1) h, congrArg (·.2.2.2.2.2.1) h,
    congrArg (·.2.2.2.2.2.2.1) h, congrArg (·.2.2.2.2.2.2.2.1) h,
    congrArg (·.2.2.2.2.2.2.2.2.1) h, congrArg (·.2.2.2.2.2.2.2.2.2.1) h,
    congrArg (·.2.2.2.2.2.2.2.2.2.2) h⟩

/-! Node access after annotation writes. -/

theorem nodes_length_getD_default (u : Tree) (i : Nat) (h : ¬ i < u.nodes.length) :
    u.node i = default := by
  unfold Tree.node
  rw [List.getD_eq_getElem?_getD, List.getElem?_eq_none (by omega), Option.getD_none]

theorem node_setOptimistic_minMax (u : Tree) (i v tp : Nat) :
    ((setOptimistic u i v tp).node i).annot.minMax = (u.node i).annot.minMax := by
  unfold setOptimistic Tree.setNode Tree.node
  rw [listGetD_set, if_pos rfl]
  split
  · rfl
  · rw [show u.nodes.getD i default = default from by
      rw [List.getD_eq_getElem?_getD, List.getElem?_eq_none (by omega),
        Option.getD_none]]

theorem node_setMinMax_self (u : Tree) (i v tp : Nat) (h : i < u.nodes.length) :
    ((setMinMax u i v tp).node i).annot.minMax = v := by
  unfold setMinMax Tree.setNode Tree.node
  rw [listGetD_set]
  simp [h]

theorem minMax_caflOptimistic (textPos mmr nmh parent : Nat) (u : Tree) :
    ((caflOptimistic textPos mmr nmh parent u).node parent).annot.minMax =
      (u.node parent).annot.minMax := by
  unfold caflOptimistic
  split
  · exact node_setOptimistic_minMax u parent _ _
  · split
    · split
      · split <;> exact node_setOptimistic_minMax u parent _ _
      · exact node_setOptimistic_minMax u parent _ _
    · split <;> exact node_setOptimistic_minMax u parent _ _

theorem caflWalk_zero (textPos finalPos : Nat) (len : Int) (mmr : Nat)
    (op : Option Nat) (u : Tree) :
    caflWalk textPos finalPos len mmr 0 op u = u := by
  cases op <;> rfl

/-- Claim C5 (amended): in an ancestor step of the annotation walk where the

range fits the horizon and the committed annotation is replaced, the value
written into the ancestor's minMax is the candidate cost
costArray[cappedMax(S, textPos, textPos + d - 1, C)], the cost array entry
indexed by the cappedMax result, rather than the cappedMax value itself. -/
theorem candidate_cost_written (t : Tree) (textPos finalPos : Nat) (len : Int)
    (mmr parent : Nat)
    (hd : ((t.node parent).strDepth : Int) > len)
    (hfit : textPos + (t.node parent).strDepth - 1 ≤ finalPos)
    (hne : ¬ (t.node parent).annot.minMax = t.COST)
    (hlt : candidateCost t textPos (t.node parent).strDepth <
      (t.node parent).annot.minMax)
    (hbound : parent < t.nodes.length) :
    ((caflWalk textPos finalPos len mmr 1 (some parent) t).node parent).annot.minMax
      = candidateCost t textPos (t.node parent).strDepth := by
  rw [show (1 : Nat) = 0 + 1 from rfl, caflWalk, if_pos hd, caflWalk_zero]
  unfold caflStep
  rw [minMax_caflOptimistic]
  unfold caflCommit
  rw [if_pos hfit]
  dsimp only
  rw [if_neg hne, if_pos hlt]
  exact node_setMinMax_self t parent _ _ hbound

/-- Claim C7: at a visited node of the descent, the unset sentinel returns

the best match so far, and an optimisticMinMax equal to C returns after
adopting the pair of D[optimisticTextPos] and optimisticTextPos as the
current match exactly when that D value exceeds the current match length. -/
theorem findsub_sentinel_and_cap (t : Tree) (W : Nat → Nat) (P fuel node j : Nat)
    (cm : Match) :
    ((t.node node).annot.optimisticMinMax = UMAX →
      ST_FindSubstringAux t W P (fuel+1) (some node) j cm = .ok cm) ∧
    (¬ (t.node node).annot.optimisticMinMax = UMAX →
     (t.node node).annot.optimisticMinMax = t.COST →
      ST_FindSubstringAux t W P (fuel+1) (some node) j cm =
        .ok (if t.D.getD (t.node node).annot.optimisticTextPos (-1) >
               (cm.length : Int)
             then { length :=
                      (t.D.getD (t.node node).annot.optimisticTextPos (-1)).toNat,
                    pos := (t.node node).annot.optimisticTextPos }
             else cm)) := by
  constructor
  · intro h
    rw [ST_FindSubstringAux, if_pos h]
  · intro h1 h2
    rw [ST_FindSubstringAux, if_neg h1, if_pos h2]

theorem tsAt_propagate (textPos len : Nat) (t : Tree) (i : Nat) :
    ( propagateAnnotation textPos len t).tsAt i = t.tsAt i := by
  unfold Tree.tsAt
  rw [(globals_fields (globals_propagate textPos len t)).1]

/-- Claim C10: when the first character of the query labels no edge out of

the root, the query returns the empty match of length 0 and position 0;
the parse iteration fed with that match completes normally and emits the
phrase with source field 0 - 1 = -1, length 0 and the current byte as
literal, the normal encoding of a bare literal. -/
theorem bare_literal_encoding (t : Tree) (W : Nat → Nat) (P textPos popc : Nat)
    (h : find_son t t.root (W 0) = none) :
    ST_FindSubstring t W P = .ok { length := 0, pos := 0 } ∧
    (parseIter t textPos popc { length := 0, pos := 0 }).isOk = true ∧
    piPh (parseIter t textPos popc { length := 0, pos := 0 }) =
      ((-1 : Int), 0, t.tsAt textPos) := by
  refine ⟨?_, ?_, ?_⟩
  · unfold ST_FindSubstring
    rw [h]
    generalize t.nodes.length + 1 = f
    cases f <;> rfl
  · rfl
  · unfold parseIter parseBody Res.bindR piPh
    dsimp only
    rw [tsAt_propagate]
    simp [Tree.tsAt]

/-! Concrete evaluations: counterexamples and witnesses. -/

/-- Claim C3: exit code evaluations of the failure paths of main.  An input

file that cannot be opened is reported and main returns 0, and allocation
failure calls exit(0), both contradicting the documented exit code 1;
missing arguments and a zero byte inside the payload do exit with 1. -/
theorem main_exit_codes_on_failures :
    mainExit true false true [97] 1 8 = .ok 0 ∧
    mainExit true true false [97] 1 8 = .ok 0 ∧
    mainExit false true true [97] 1 8 = .ok 1 ∧
    mainExit true true true [97, 0, 98] 1 8 = .ok 1 :=
  ⟨rfl, rfl, rfl, rfl⟩

/-- Claim C4 (counterexample): parsing the one byte text 97, a normal run,

the second query is made at textPos 2 with length argument 2 = tree length,
although n - textPos + 1 = 1; the length argument passed is not
n - textPos + 1. -/
theorem parse_query_length_counterexample :
    (runBATLZ [97] 2 8).isOk = true ∧
    (prQ (runBATLZ [97] 2 8)).getD 1 (0, 0) = (2, 2) ∧
    (prQ (runBATLZ [97] 2 8)).getD 1 (0, 0) ≠
      (2, (crTree (ST_CreateTree [97] 8)).length - 2 + 1) := by
  refine ⟨by decide, by decide, by decide⟩

/-- Claim C5 (counterexample): a concrete annotation update from the leaf of

position 1 over U = [9,5,9,9] with C = 3 writes minMax 9 into the ancestor,
while the spec-modelled cappedMax over U[1..1] is min(3, 5) = 3: the
candidate cost of the walk is the cost array entry indexed by the cappedMax
result, not the cappedMax value. -/
theorem candidate_cost_counterexample :
    ((changeAnnotationFromLeaf 1 1 0 5 0 fiveTree).node 1).annot.minMax = 9 ∧
    cappedMax fiveTree.segm 1 1 fiveTree.COST = 3 ∧
    ((changeAnnotationFromLeaf 1 1 0 5 0 fiveTree).node 1).annot.minMax ≠
      cappedMax fiveTree.segm 1 1 fiveTree.COST := by
  refine ⟨by decide, by decide, by decide⟩

theorem candidate_cost_written_witness :
    ((caflWalk 1 1 0 5 1 (some 1) fiveTree).node 1).annot.minMax =
      candidateCost fiveTree 1 (fiveTree.node 1).strDepth :=
  candidate_cost_written fiveTree 1 1 0 5 1 (by decide) (by decide) (by decide)
    (by decide) (by decide)

theorem findsub_sentinel_and_cap_witness :
    ST_FindSubstringAux aababTree (fun j => aababTree.tsAt (1+j)) aababTree.length
      1 (some 2) 0 { length := 0, pos := 0 } = .ok { length := 0, pos := 0 } ∧
    ST_FindSubstringAux aababTree2 (fun j => aababTree2.tsAt (4+j))
      aababTree2.length 1 (some 5) 0 { length := 0, pos := 0 } =
      .ok (if aababTree2.D.getD (aababTree2.node 5).annot.optimisticTextPos (-1) >
             (({ length := 0, pos := 0 } : Match).length : Int)
           then { length := (aababTree2.D.getD
                    (aababTree2.node 5).annot.optimisticTextPos (-1)).toNat,
                  pos := (aababTree2.node 5).annot.optimisticTextPos }
           else { length := 0, pos := 0 }) :=
  ⟨(findsub_sentinel_and_cap aababTree (fun j => aababTree.tsAt (1+j))
      aababTree.length 0 2 0 { length := 0, pos := 0 }).1 (by decide),
   (findsub_sentinel_and_cap aababTree2 (fun j => aababTree2.tsAt (4+j))
      aababTree2.length 0 5 0 { length := 0, pos := 0 }).2 (by decide) (by decide)⟩

theorem bare_literal_encoding_witness :
    ST_FindSubstring aababTree (fun _ => 5) 6 = .ok { length := 0, pos := 0 } ∧
    (parseIter aababTree 1 0 { length := 0, pos := 0 }).isOk = true ∧
    piPh (parseIter aababTree 1 0 { length := 0, pos := 0 }) =
      ((-1 : Int), 0, aababTree.tsAt 1) :=
  bare_literal_encoding aababTree (fun _ => 5) 6 1 0 (by decide)

/-- Claim C9 (counterexample): parsing aabab with C = 1, starting from the

post-construction tree state, the first two parse iterations follow the
query results of parseBLZ; after the second iteration the internal node 5
carries optimisticMinMax 1 strictly above its committed minMax 0 (both
finite, not the unset sentinel), refuting the invariant. -/
theorem optimistic_invariant_counterexample :
    aababMatch0 = { length := 0, pos := 0 } ∧
    aababStep0.isOk = true ∧
    aababMatch1 = { length := 1, pos := 1 } ∧
    aababStep1.isOk = true ∧
    (aababTree2.node 5).annot.minMax = 0 ∧
    (aababTree2.node 5).annot.optimisticMinMax = 1 ∧
    (aababTree2.node 5).annot.minMax <
      (aababTree2.node 5).annot.optimisticMinMax := by
  refine ⟨by decide, by decide, by decide, by decide, by decide, by decide,
    by decide⟩

/-! The call structure of propagateAnnotation. -/

theorem rangeMax_peel (a : List Nat) (i r : Nat) (h : i ≤ r) :
    rangeMax a i r = max (a.getD i 0) (rangeMax a (i+1) r) := by
  unfold rangeMax
  rw [show r + 1 - i = (r - i) + 1 by omega, show r + 1 - (i+1) = r - i by omega]
  rfl

theorem rangeMax_empty (a : List Nat) (r : Nat) : rangeMax a (r+1) r = 0 := by
  unfold rangeMax
  rw [show r + 1 - (r+1) = 0 by omega]
  rfl

theorem runningMax_step (a : List Nat) (i r cmm : Nat) (hle : i ≤ r)
    (h : cmm = rangeMax a (i+1) r) :
    (if cmm < a.getD i 0 then a.getD i 0 else cmm) = rangeMax a i r := by
  rw [rangeMax_peel a i r hle, ← h]
  split <;> omega

theorem propagateCallsSpec_congr (t u : Tree) (textPos r : Nat)
    (hc : u.costArray = t.costArray) (hm : u.maxStrDepth = t.maxStrDepth) :
    ∀ i, propagateCallsSpec u textPos r i = propagateCallsSpec t textPos r i := by
  intro i
  induction i with
  | zero => rfl
  | succ i2 ih =>
    rw [propagateCallsSpec, propagateCallsSpec, hc, hm, ih]

theorem propagateAux_call_structure (textPos len : Nat) :
    ∀ (i : Nat) (cmm : Nat) (t : Tree),
      i ≤ textPos + len →
      cmm = rangeMax t.costArray (i+1) (textPos + len) →
      propagateAux textPos len i cmm t =
        (propagateCallsSpec t textPos (textPos + len) i).foldl
          (fun s c => changeAnnotationFromLeaf c.1 (textPos + len)
            ((textPos : Int) - (c.1 : Int)) c.2 0 s) t := by
  intro i
  induction i with
  | zero => intro cmm t _ _; rfl
  | succ i2 ih =>
    intro cmm t hle hcmm
    rw [propagateAux, propagateCallsSpec]
    have hstep : (if cmm < t.costArray.getD (i2+1) 0 then t.costArray.getD (i2+1) 0
        else cmm) = rangeMax t.costArray (i2+1) (textPos + len) :=
      runningMax_step t.costArray (i2+1) (textPos + len) cmm hle hcmm
    split
    · rfl
    · rw [List.foldl_cons]
      dsimp only
      rw [hstep]
      have hg := globals_fields ( globals_changeAnnotation (i2+1) (textPos+len)
        ((textPos : Int) - ((i2+1 : Nat) : Int))
        (rangeMax t.costArray (i2+1) (textPos + len)) 0 t)
      rw [ih (rangeMax t.costArray (i2+1) (textPos + len))
        (changeAnnotationFromLeaf (i2+1) (textPos+len)
          ((textPos : Int) - ((i2+1 : Nat) : Int))
          (rangeMax t.costArray (i2+1) (textPos + len)) 0 t)
        (by omega) (by rw [hg.2.2.2.2.2.2.1])]
      rw [propagateCallsSpec_congr t _ textPos (textPos + len)
        hg.2.2.2.2.2.2.1 hg.2.2.2.2.2.2.2.2.1 i2]

/-- Claim C8: propagateAnnotation iterates i downward from textPos + len,

carrying as minMaxOfRange the running maximum of U[i..textPos+len] started
from 0, stops before processing the first i whose maxStrDepth is below
textPos, and calls changeAnnotationFromLeaf(i, textPos+len, textPos-i,
currentMinMaxOfRange, 0) for every processed i: it equals the fold of
changeAnnotationFromLeaf over the specification-side call list. -/
theorem propagate_call_structure (textPos len : Nat) (t : Tree) :
    propagateAnnotation textPos len t =
      (propagateCallsSpec t textPos (textPos + len) (textPos + len)).foldl
        (fun s c => changeAnnotationFromLeaf c.1 (textPos + len)
          ((textPos : Int) - (c.1 : Int)) c.2 0 s) t := by
  unfold propagateAnnotation
  exact propagateAux_call_structure textPos len (textPos + len) 0 t (Nat.le_refl _)
    (rangeMax_empty t.costArray (textPos + len)).symm

/-! The body loop of a parse iteration. -/

theorem kseqFrom_lt (src textPos k : Nat) (h : src + k < textPos) :
    ∀ j, src + kseqFrom src textPos k j < textPos := by
  intro j
  induction j with
  | zero => exact h
  | succ j2 ih =>
    rw [kseqFrom]
    split
    · omega
    · omega

theorem kseqFrom_shift (src textPos k : Nat) :
    ∀ j, kseqFrom src textPos k (j+1) =
      kseqFrom src textPos (if src + (k+1) = textPos then 0 else k+1) j := by
  intro j
  induction j with
  | zero =>
    rw [kseqFrom, kseqFrom, kseqFrom]
  | succ j2 ih =>
    rw [kseqFrom, ih, ← kseqFrom]

theorem parseBodyStep_spec (textPos src i popc k : Nat) (t : Tree) (s : Tree × Nat)
    (h : parseBodyStep textPos src i popc k t = .ok s) :
    s.1.ts = t.ts ∧ s.1.length = t.length ∧ s.1.COST = t.COST ∧
    s.1.nodes = t.nodes ∧ s.1.maxStrDepth = t.maxStrDepth ∧
    s.1.costArray.length = t.costArray.length ∧
    s.1.costArray.getD (textPos+i) 0 ≤ t.COST ∧
    (∀ p, p ≠ textPos + i → s.1.costArray.getD p 0 = t.costArray.getD p 0) ∧
    (textPos + i < t.costArray.length →
      s.1.costArray.getD (textPos+i) 0 = t.costArray.getD (src+k) 0 + 1) := by
  unfold parseBodyStep at h
  dsimp only at h
  split at h
  case isTrue hveq =>
    split at h
    case isTrue hgt => exact absurd h (by simp)
    case isFalse hgt =>
      cases h
      refine ⟨rfl, rfl, rfl, rfl, rfl, by simp, by dsimp only at hgt ⊢; omega, ?_, ?_⟩
      · intro p hp
        show (t.costArray.set (textPos+i) _).getD p 0 = _
        rw [listGetD_set, if_neg (by omega)]
      · intro hin
        show (t.costArray.set (textPos+i) _).getD (textPos+i) 0 = _
        rw [listGetD_set, if_pos rfl, if_pos hin]
  case isFalse hveq =>
    split at h
    case isTrue hgt => exact absurd h (by simp)
    case isFalse hgt =>
      cases h
      refine ⟨rfl, rfl, rfl, rfl, rfl, by simp, by dsimp only at hgt ⊢; omega, ?_, ?_⟩
      · intro p hp
        show (t.costArray.set (textPos+i) _).getD p 0 = _
        rw [listGetD_set, if_neg (by omega)]
      · intro hin
        show (t.costArray.set (textPos+i) _).getD (textPos+i) 0 = _
        rw [listGetD_set, if_pos rfl, if_pos hin]

theorem parseBody_spec (textPos src : Nat) :
    ∀ (rem i k popc : Nat) (t : Tree) (r : Tree × Nat),
      parseBody textPos src rem i k popc t = .ok r →
      (r.1.ts = t.ts ∧ r.1.length = t.length ∧ r.1.COST = t.COST ∧
       r.1.nodes = t.nodes ∧ r.1.maxStrDepth = t.maxStrDepth ∧
       r.1.costArray.length = t.costArray.length) ∧
      (∀ p, p < textPos + i → r.1.costArray.getD p 0 = t.costArray.getD p 0) ∧
      (∀ p, textPos + i ≤ p → p < textPos + i + rem →
        r.1.costArray.getD p 0 ≤ t.COST) ∧
      (src + k < textPos →
        ∀ j, j < rem → textPos + i + j < t.costArray.length →
          r.1.costArray.getD (textPos + i + j) 0 =
            t.costArray.getD (src + kseqFrom src textPos k j) 0 + 1) := by
  intro rem
  induction rem with
  | zero =>
    intro i k popc t r h
    cases h
    exact ⟨⟨rfl, rfl, rfl, rfl, rfl, rfl⟩, fun p _ => rfl, fun p h1 h2 => by omega,
      fun _ j hj => by omega⟩
  | succ rem2 ih =>
    intro i k popc t r h
    rw [parseBody] at h
    cases hstep : parseBodyStep textPos src i popc k t with
    | abort => rw [hstep] at h; exact absurd h (by simp [Res.bindR])
    | out => rw [hstep] at h; exact absurd h (by simp [Res.bindR])
    | ok s =>
      rw [hstep] at h
      have hs := parseBodyStep_spec textPos src i popc k t s hstep
      have hrec := ih (i+1) (if src + (k+1) = textPos then 0 else k+1) s.2 s.1 r h
      obtain ⟨⟨g1, g2, g3, g4, g5, g6⟩, hb, hc, hd⟩ := hrec
      refine ⟨⟨g1.trans hs.1, g2.trans hs.2.1, g3.trans hs.2.2.1,
        g4.trans hs.2.2.2.1, g5.trans hs.2.2.2.2.1,
        g6.trans hs.2.2.2.2.2.1⟩, ?_, ?_, ?_⟩
      · intro p hp
        rw [hb p (by omega), hs.2.2.2.2.2.2.2.1 p (by omega)]
      · intro p h1 h2
        rcases Nat.eq_or_lt_of_le h1 with heq | hlt
        · rw [hb p (by omega), ← heq]
          exact hs.2.2.2.2.2.2.1
        · exact le_of_le_of_eq (hc p (by omega) (by omega)) hs.2.2.1
      · intro hsrck j hj hjb
        have hwrap : src + (if src + (k+1) = textPos then 0 else k+1) < textPos := by
          split <;> omega
        cases j with
        | zero =>
          rw [hb (textPos + i + 0) (by omega)]
          show s.1.costArray.getD (textPos + i) 0 = _
          rw [hs.2.2.2.2.2.2.2.2 (by omega)]
          rfl
        | succ j2 =>
          rw [show textPos + i + (j2+1) = textPos + (i+1) + j2 by omega,
            hd hwrap j2 (by omega) (by rw [hs.2.2.2.2.2.1]; omega),
            kseqFrom_shift,
            hs.2.2.2.2.2.2.2.1 _ (by
              have := kseqFrom_lt src textPos _ hwrap j2
              omega)]

/-! One parse iteration and the parse loop. -/

theorem length_propagate (textPos len : Nat) (u : Tree) :
    ( propagateAnnotation textPos len u).length = u.length :=
  (globals_fields (globals_propagate textPos len u)).2.2.1

theorem COST_propagate (textPos len : Nat) (u : Tree) :
    ( propagateAnnotation textPos len u).COST = u.COST :=
  (globals_fields (globals_propagate textPos len u)).2.2.2.2.2.1

theorem costArray_propagate (textPos len : Nat) (u : Tree) :
    ( propagateAnnotation textPos len u).costArray = u.costArray :=
  (globals_fields (globals_propagate textPos len u)).2.2.2.2.2.2.1

theorem parseIter_ok_shape (t : Tree) (textPos popc : Nat) (m : Match)
    (ri : Tree × Nat × Phrase) (h : parseIter t textPos popc m = .ok ri) :
    ∃ rb : Tree × Nat, parseBody textPos m.pos m.length 0 0 popc t = .ok rb ∧
      ri.1.costArray = rb.1.costArray.set (textPos + m.length) 0 ∧
      ri.1.length = rb.1.length ∧ ri.1.COST = rb.1.COST := by
  unfold parseIter at h
  cases hb : parseBody textPos m.pos m.length 0 0 popc t with
  | abort => rw [hb] at h; exact absurd h (by simp [Res.bindR])
  | out => rw [hb] at h; exact absurd h (by simp [Res.bindR])
  | ok rb =>
    rw [hb] at h
    dsimp only [Res.bindR] at h
    cases h
    exact ⟨rb, rfl, by dsimp only; rw [costArray_propagate],
      by dsimp only; rw [length_propagate],
      by dsimp only; rw [COST_propagate]⟩

theorem parseIter_spec (t : Tree) (textPos popc : Nat) (m : Match)
    (ri : Tree × Nat × Phrase) (h : parseIter t textPos popc m = .ok ri) :
    ri.1.length = t.length ∧ ri.1.COST = t.COST ∧
    ri.1.costArray.length = t.costArray.length ∧
    (∀ p, p < textPos → ri.1.costArray.getD p 0 = t.costArray.getD p 0) ∧
    (∀ p, textPos ≤ p → p ≤ textPos + m.length → p < t.costArray.length →
      ri.1.costArray.getD p 0 ≤ t.COST) := by
  obtain ⟨rb, hb, hca, hlen, hcost⟩ := parseIter_ok_shape t textPos popc m ri h
  obtain ⟨⟨_, g2, g3, _, _, g6⟩, pb, pc, _⟩ :=
    parseBody_spec textPos m.pos m.length 0 0 popc t rb hb
  refine ⟨hlen.trans g2, hcost.trans g3, by rw [hca]; simpa using g6, ?_, ?_⟩
  · intro p hp
    rw [hca, listGetD_set, if_neg (by omega)]
    exact pb p (by omega)
  · intro p h1 h2 h3
    rcases Nat.eq_or_lt_of_le h2 with heq | hlt
    · rw [hca, heq, listGetD_set, if_pos rfl, if_pos (by omega)]
      omega
    · rw [hca, listGetD_set, if_neg (by omega)]
      exact pc p (by omega) (by omega)

/-- Claim C6: after a parse iteration that emits a phrase of length L from

source src earlier than textPos, the cost written at textPos+i equals the
cost at the source position src + k plus one where k advances by one per
step and wraps to 0 whenever src + k reaches textPos, and the literal
position textPos+L receives cost zero. -/
theorem parse_cost_recurrence (t : Tree) (textPos popc : Nat) (m : Match)
    (hok : (parseIter t textPos popc m).isOk = true)
    (hsrc : m.pos < textPos)
    (hbound : textPos + m.length < t.costArray.length) :
    (∀ i, i < m.length →
      (piT (parseIter t textPos popc m)).costArray.getD (textPos + i) 0 =
        (piT (parseIter t textPos popc m)).costArray.getD
          (m.pos + kseq m.pos textPos i) 0 + 1) ∧
    (piT (parseIter t textPos popc m)).costArray.getD (textPos + m.length) 0
      = 0 := by
  cases hres : parseIter t textPos popc m with
  | abort => rw [hres] at hok; exact absurd hok (by simp [Res.isOk])
  | out => rw [hres] at hok; exact absurd hok (by simp [Res.isOk])
  | ok ri =>
    obtain ⟨rb, hb, hca, _, _⟩ := parseIter_ok_shape t textPos popc m ri hres
    obtain ⟨⟨_, _, _, _, _, g6⟩, pb, _, pd⟩ :=
      parseBody_spec textPos m.pos m.length 0 0 popc t rb hb
    constructor
    · intro i hi
      have hk := kseqFrom_lt m.pos textPos 0 (by omega) i
      dsimp only [piT]
      simp only [kseq]
      rw [hca, listGetD_set, if_neg (by omega),
        listGetD_set, if_neg (by omega)]
      rw [show textPos + i = textPos + 0 + i by omega]
      rw [pd (by omega) i (by omega) (by omega)]
      rw [pb (m.pos + kseqFrom m.pos textPos 0 i) (by omega)]
    · dsimp only [piT]
      rw [hca, listGetD_set, if_pos rfl, if_pos (by rw [g6]; omega)]

theorem parseLoop_cost : ∀ (fuel textPos popc z : Nat) (acc : List Phrase)
    (qacc : List (Nat × Nat)) (t : Tree)
    (r : Tree × List Phrase × Nat × List (Nat × Nat)),
    parseLoop fuel textPos popc z acc qacc t = .ok r →
    1 ≤ textPos →
    t.length < t.costArray.length →
    (∀ p, 1 ≤ p → p < textPos → p ≤ t.length → t.costArray.getD p 0 ≤ t.COST) →
    ∀ p, 1 ≤ p → p ≤ t.length → r.1.costArray.getD p 0 ≤ t.COST := by
  intro fuel
  induction fuel with
  | zero => intro _ _ _ _ _ _ _ h; exact absurd h (by simp [parseLoop])
  | succ fuel2 ih =>
    intro textPos popc z acc qacc t r h h1 hlen hinv
    rw [parseLoop] at h
    split at h
    case isFalse hgt =>
      cases h
      intro p hp1 hp2
      exact hinv p hp1 (by omega) hp2
    case isTrue hle =>
      cases hm : ST_FindSubstring t (fun j => t.tsAt (textPos + j)) t.length with
      | abort => rw [hm] at h; exact absurd h (by simp [Res.bindR])
      | out => rw [hm] at h; exact absurd h (by simp [Res.bindR])
      | ok m =>
        rw [hm] at h
        dsimp only [Res.bindR] at h
        cases hit : parseIter t textPos popc m with
        | abort => rw [hit] at h; exact absurd h (by simp [Res.bindR])
        | out => rw [hit] at h; exact absurd h (by simp [Res.bindR])
        | ok ri =>
          rw [hit] at h
          dsimp only [Res.bindR] at h
          obtain ⟨glen, gcost, gcal, gb, gc⟩ := parseIter_spec t textPos popc m ri hit
          intro p hp1 hp2
          have hmain := ih (textPos + m.length + 1) ri.2.1 (z+1) (acc ++ [ri.2.2])
            (qacc ++ [(textPos, t.length)]) ri.1 r h (by omega)
            (by rw [glen, gcal]; exact hlen)
            (by
              intro q hq1 hq2 hq3
              rw [glen] at hq3
              rcases Nat.lt_or_ge q textPos with hc1 | hc2
              · rw [gcost, gb q hc1]
                exact hinv q hq1 hc1 hq3
              · rw [gcost]
                exact gc q (by omega) (by omega) (by omega))
          rw [glen] at hmain
          have := hmain p hp1 hp2
          rw [gcost] at this
          exact this

/-- Claim C2: when parseBLZ terminates normally, every position of the cost

array from 1 to the text length holds a value at most the cost bound C in
the final state. -/
theorem parse_cost_bound (t : Tree) (fuel : Nat)
    (hok : (parseBLZ t fuel).isOk = true)
    (hlen : t.length < t.costArray.length)
    (i : Nat) (h1 : 1 ≤ i) (h2 : i ≤ t.length) :
    (prT (parseBLZ t fuel)).costArray.getD i 0 ≤ t.COST := by
  cases hres : parseBLZ t fuel with
  | abort => rw [hres] at hok; exact absurd hok (by simp [Res.isOk])
  | out => rw [hres] at hok; exact absurd hok (by simp [Res.isOk])
  | ok r =>
    dsimp only [prT]
    exact parseLoop_cost fuel 1 0 0 [] [] t r hres (by omega) hlen
      (by omega) i h1 h2

theorem parseLoop_qlog : ∀ (fuel textPos popc z : Nat) (acc : List Phrase)
    (qacc : List (Nat × Nat)) (t : Tree)
    (r : Tree × List Phrase × Nat × List (Nat × Nat)),
    parseLoop fuel textPos popc z acc qacc t = .ok r →
    (∀ e ∈ qacc, e.2 = t.length) →
    ∀ e ∈ r.2.2.2, e.2 = t.length := by
  intro fuel
  induction fuel with
  | zero => intro _ _ _ _ _ _ _ h; exact absurd h (by simp [parseLoop])
  | succ fuel2 ih =>
    intro textPos popc z acc qacc t r h hacc
    rw [parseLoop] at h
    split at h
    case isFalse hgt => cases h; exact hacc
    case isTrue hle =>
      cases hm : ST_FindSubstring t (fun j => t.tsAt (textPos + j)) t.length with
      | abort => rw [hm] at h; exact absurd h (by simp [Res.bindR])
      | out => rw [hm] at h; exact absurd h (by simp [Res.bindR])
      | ok m =>
        rw [hm] at h
        dsimp only [Res.bindR] at h
        cases hit : parseIter t textPos popc m with
        | abort => rw [hit] at h; exact absurd h (by simp [Res.bindR])
        | out => rw [hit] at h; exact absurd h (by simp [Res.bindR])
        | ok ri =>
          rw [hit] at h
          dsimp only [Res.bindR] at h
          obtain ⟨glen, _, _, _, _⟩ := parseIter_spec t textPos popc m ri hit
          intro e he
          rw [← glen]
          refine ih (textPos + m.length + 1) ri.2.1 (z+1) (acc ++ [ri.2.2])
            (qacc ++ [(textPos, t.length)]) ri.1 r h ?_ e he
          intro e2 he2
          rcases List.mem_append.1 he2 with hin | hin
          · rw [glen]; exact hacc e2 hin
          · rw [glen]
            rcases List.mem_singleton.1 hin with rfl
            rfl

/-- Claim C4 (amended): every query parseBLZ makes passes the suffix of the

text at textPos together with the constant length argument tree length
(text length with the appended sentinel); the length argument does not
depend on textPos. -/
theorem parse_query_length_constant (t : Tree) (fuel : Nat)
    (hok : (parseBLZ t fuel).isOk = true) :
    ∀ e ∈ prQ (parseBLZ t fuel), e.2 = t.length := by
  cases hres : parseBLZ t fuel with
  | abort => rw [hres] at hok; exact absurd hok (by simp [Res.isOk])
  | out => rw [hres] at hok; exact absurd hok (by simp [Res.isOk])
  | ok r =>
    dsimp only [prQ]
    exact parseLoop_qlog fuel 1 0 0 [] [] t r hres (by simp)

/-! Witnesses for the parse theorems, on the aabab states. -/

theorem parse_cost_bound_witness :
    (prT (parseBLZ aababC2 8)).costArray.getD 1 0 ≤ aababC2.COST :=
  parse_cost_bound aababC2 8 (by decide) (by decide) 1 (by decide) (by decide)

theorem parse_query_length_constant_witness :
    ((prQ (parseBLZ aababC2 8)).getD 1 (0, 0)).2 = aababC2.length :=
  parse_query_length_constant aababC2 8 (by decide)
    ((prQ (parseBLZ aababC2 8)).getD 1 (0, 0)) (by decide)

theorem parse_cost_recurrence_witness :
    (piT (parseIter aababTree1 2 (piPopc aababStep0) aababMatch1)).costArray.getD
        (2 + 0) 0 =
      (piT (parseIter aababTree1 2 (piPopc aababStep0) aababMatch1)).costArray.getD
        (aababMatch1.pos + kseq aababMatch1.pos 2 0) 0 + 1 ∧
    (piT (parseIter aababTree1 2 (piPopc aababStep0) aababMatch1)).costArray.getD
        (2 + aababMatch1.length) 0 = 0 :=
  ⟨(parse_cost_recurrence aababTree1 2 (piPopc aababStep0) aababMatch1
      (by decide) (by decide) (by decide)).1 0 (by decide),
   (parse_cost_recurrence aababTree1 2 (piPopc aababStep0) aababMatch1
      (by decide) (by decide) (by decide)).2⟩

/-! The annotation fields stay at the unset sentinel throughout tree

construction: the Ukkonen phases never touch annotations, and the DFS
resets them to the sentinel. -/

theorem Res.bindR_ok {α β : Type} (a : α) (f : α → Res β) :
    (Res.ok a).bindR f = f a := rfl

theorem AllUnset_setNode {t : Tree} (h : AllUnset t) (i : Nat) (n : Node)
    (h1 : n.annot.minMax = UMAX) (h2 : n.annot.optimisticMinMax = UMAX) :
    AllUnset (t.setNode i n) := by
  intro j
  unfold Tree.setNode Tree.node
  dsimp only
  rw [listGetD_set]
  split
  · split
    · exact ⟨h1, h2⟩
    · exact ⟨rfl, rfl⟩
  · exact h j

theorem AllUnset_setNode_self {t : Tree} (h : AllUnset t) (y : Nat) (n : Node)
    (hn : n.annot = (t.node y).annot) : AllUnset (t.setNode y n) :=
  AllUnset_setNode h y n (by rw [hn]; exact (h y).1) (by rw [hn]; exact (h y).2)

theorem AllUnset_nodes_eq {t u : Tree} (h : AllUnset t) (he : u.nodes = t.nodes) :
    AllUnset u := by
  intro j
  have hj := h j
  unfold Tree.node at hj ⊢
  rw [he]
  exact hj

theorem AllUnset_setSuffixless {t : Tree} (h : AllUnset t) (o : Option Nat) :
    AllUnset { t with suffixless := o } := fun j => h j

theorem AllUnset_setArrays {t : Tree} (h : AllUnset t) (ip msd : List Nat) :
    AllUnset { t with inversePointers := ip, maxStrDepth := msd } := fun j => h j

theorem AllUnset_create {t : Tree} (h : AllUnset t) (f : Option Nat)
    (a b c : Nat) : AllUnset (create_node t f a b c).1 := by
  intro j
  unfold create_node Tree.node
  dsimp only
  rw [listGetD_append]
  split
  · exact h j
  · split
    · exact ⟨rfl, rfl⟩
    · exact ⟨rfl, rfl⟩

theorem AllUnset_connect {t : Tree} (h : AllUnset t) (l r : Option Nat) :
    AllUnset (connect_siblings t l r) := by
  unfold connect_siblings
  cases l with
  | none =>
    cases r with
    | none => exact h
    | some ri =>
      exact AllUnset_setNode_self h ri
        { t.node ri with left_sibling := none } rfl
  | some li =>
    cases r with
    | none =>
      exact AllUnset_setNode_self h li
        { t.node li with right_sibling := none } rfl
    | some ri =>
      have h2 := AllUnset_setNode_self h li
        { t.node li with right_sibling := some ri } rfl
      exact AllUnset_setNode_self h2 ri
        { (t.setNode li { t.node li with right_sibling := some ri }).node ri with
          left_sibling := some li } rfl

theorem AllUnset_rule2Split1 {t : Tree} (h : AllUnset t) (node d : Nat) :
    AllUnset (rule2Split1 t node d).1 := by
  unfold rule2Split1
  dsimp only
  refine AllUnset_setNode_self ?_ ?_ ?_ ?_
  · exact AllUnset_create h _ _ _ _
  · rfl

theorem AllUnset_rule2Split2 {t : Tree} (h : AllUnset t) (node ni a b c : Nat) :
    AllUnset (rule2Split2 t node ni a b c).1 := by
  unfold rule2Split2
  dsimp only
  refine AllUnset_setNode_self ?_ ?_ ?_ ?_
  · exact AllUnset_connect (AllUnset_connect (AllUnset_create h _ _ _ _) _ _) _ _
  · rfl

theorem AllUnset_rule2Split3 {t : Tree} (h : AllUnset t) (node ni nl : Nat) :
    AllUnset (rule2Split3 t node ni nl) := by
  unfold rule2Split3
  dsimp only
  refine AllUnset_connect ?_ _ _
  refine AllUnset_setNode_self ?_ ?_ ?_ ?_
  · refine AllUnset_setNode_self ?_ ?_ ?_ ?_
    · split
      · split
        · refine AllUnset_setNode_self ?_ ?_ ?_ ?_
          · exact h
          · rfl
        · exact h
      · exact h
    · rfl
  · rfl

theorem AllUnset_rule2 {t : Tree} (h : AllUnset t) (node a b c d : Nat)
    (ty : Rule2) : AllUnset (apply_extension_rule_2 t node a b c d ty).1 := by
  unfold apply_extension_rule_2
  cases ty with
  | new_son =>
    dsimp only
    split
    · exact AllUnset_create h (some node) a b c
    · exact AllUnset_connect (AllUnset_create h (some node) a b c) _ _
  | split =>
    dsimp only
    exact AllUnset_rule2Split3
      (AllUnset_rule2Split2 (AllUnset_rule2Split1 h node d) node _ a b c) node _ _

theorem AllUnset_linkSuffixless {t : Tree} (h : AllUnset t) (target : Option Nat)
    (clear : Bool) : AllUnset (linkSuffixless t target clear) := by
  unfold linkSuffixless
  cases hsl : t.suffixless with
  | none => exact h
  | some sl =>
    have h1 : AllUnset (t.setNode sl { t.node sl with suffix_link := target }) :=
      AllUnset_setNode_self h sl { t.node sl with suffix_link := target } rfl
    dsimp only
    split
    · exact AllUnset_setSuffixless h1 none
    · exact h1

theorem AllUnset_seaSplitStep {t : Tree} (h : AllUnset t)
    (nd sb se pp ep : Nat) : AllUnset (seaSplitStep t nd sb se pp ep).1 := by
  have h1 : AllUnset (apply_extension_rule_2 t nd sb se pp ep .split).1 :=
    AllUnset_rule2 h nd sb se pp ep .split
  unfold seaSplitStep
  dsimp only
  revert h1
  generalize apply_extension_rule_2 t nd sb se pp ep .split = pr
  intro h1
  have h2 : AllUnset (linkSuffixless pr.1 (some pr.2) false) :=
    AllUnset_linkSuffixless h1 _ _
  revert h2
  generalize linkSuffixless pr.1 (some pr.2) false = u
  intro h2
  split
  · exact AllUnset_setSuffixless
      (AllUnset_setNode_self h2 pr.2
        { u.node pr.2 with suffix_link := some u.root } rfl) none
  · exact AllUnset_setSuffixless h2 (some pr.2)

theorem AllUnset_SEA {t : Tree} (pos : Nat × Nat) (strb stre rule_in : Nat)
    (a3 : Bool) (fuel : Nat) (r : Tree × (Nat × Nat) × Nat)
    (h : SEA t pos strb stre rule_in a3 fuel = .ok r) (hA : AllUnset t) :
    AllUnset r.1 := by
  unfold SEA at h
  cases h1 : (if a3 then Res.ok pos else follow_suffix_link t pos fuel) with
  | abort => rw [h1] at h; exact absurd h (by simp [Res.bindR])
  | out => rw [h1] at h; exact absurd h (by simp [Res.bindR])
  | ok pos1 =>
    rw [h1, Res.bindR_ok] at h
    dsimp only at h
    cases h2 : (if pos1.1 = t.root then
        (trace_string t t.root strb stre false fuel).bindR fun r2 =>
          Res.ok ((r2.1, r2.2.1), r2.2.2, strb)
      else
        if is_last_char_in_edge t pos1.1 pos1.2 then
          match find_son t pos1.1 (t.tsAt stre) with
          | some tmp => Res.ok ((tmp, 0), 1, stre)
          | none => Res.ok (pos1, 0, stre)
        else
          if t.tsAt ((t.node pos1.1).edge_label_start + pos1.2 + 1) = t.tsAt stre
          then Res.ok ((pos1.1, pos1.2 + 1), 1, stre)
          else Res.ok (pos1, 0, stre) : Res ((Nat × Nat) × Nat × Nat)) with
    | abort => rw [h2] at h; exact absurd h (by simp [Res.bindR])
    | out => rw [h2] at h; exact absurd h (by simp [Res.bindR])
    | ok step =>
      rw [h2, Res.bindR_ok] at h
      split at h
      · cases h
        exact AllUnset_linkSuffixless hA _ _
      · split at h
        · split at h
          · cases h
            exact AllUnset_linkSuffixless (AllUnset_rule2 hA _ _ _ _ _ _) _ _
          · cases h
            exact hA
        · cases h
          dsimp only
          exact AllUnset_seaSplitStep hA _ _ _ _ _

theorem AllUnset_SPAAux (phase fuel : Nat) :
    ∀ (cnt : Nat) (t : Tree) (pos : Nat × Nat) (extension rule_prev : Nat)
      (rep : Bool) (r : Tree × (Nat × Nat) × Nat × Bool),
      SPAAux phase fuel cnt t pos extension rule_prev rep = .ok r →
      AllUnset t → AllUnset r.1 := by
  intro cnt
  induction cnt with
  | zero => intro t pos e rp rep r h; exact absurd h (by simp [SPAAux])
  | succ c2 ih =>
    intro t pos e rp rep r h hA
    rw [SPAAux] at h
    split at h
    · cases hs : SEA t pos e (phase+1) rp rep fuel with
      | abort => rw [hs] at h; exact absurd h (by simp [Res.bindR])
      | out => rw [hs] at h; exact absurd h (by simp [Res.bindR])
      | ok rs =>
        rw [hs] at h
        dsimp only [Res.bindR] at h
        have hA2 := AllUnset_SEA pos e (phase+1) rp rep fuel rs hs hA
        split at h
        · cases h; exact hA2
        · exact ih rs.1 rs.2.1 (e+1) rs.2.2 false r h hA2
    · cases h; exact hA

theorem AllUnset_SPA {t : Tree} (pos : Nat × Nat) (phase extension fuel : Nat)
    (rep : Bool) (r : Tree × (Nat × Nat) × Nat × Bool)
    (h : SPA t pos phase extension rep fuel = .ok r) (hA : AllUnset t) :
    AllUnset r.1 := by
  unfold SPA at h
  exact AllUnset_SPAAux phase fuel fuel _ pos extension 0 rep r h (fun j => hA j)

theorem AllUnset_phaseLoop (fuel : Nat) :
    ∀ (cnt phase : Nat) (t : Tree) (pos : Nat × Nat) (extension : Nat)
      (rep : Bool) (r : Tree × (Nat × Nat) × Nat × Bool),
      phaseLoop fuel cnt phase t pos extension rep = .ok r →
      AllUnset t → AllUnset r.1 := by
  intro cnt
  induction cnt with
  | zero => intro phase t pos e rep r h hA; cases h; exact hA
  | succ c2 ih =>
    intro phase t pos e rep r h hA
    rw [phaseLoop] at h
    cases hs : SPA t pos phase e rep fuel with
    | abort => rw [hs] at h; exact absurd h (by simp [Res.bindR])
    | out => rw [hs] at h; exact absurd h (by simp [Res.bindR])
    | ok rs =>
      rw [hs] at h
      dsimp only [Res.bindR] at h
      exact ih (phase+1) rs.1 rs.2.1 rs.2.2.1 rs.2.2.2 r h
        (AllUnset_SPA pos phase e fuel rep rs hs hA)

theorem AllUnset_dfs : ∀ (fuel : Nat),
    (∀ (t : Tree) (nid depth : Nat) (r : Tree × Nat),
      dfsFIP t fuel nid depth = .ok r → AllUnset t → AllUnset r.1) ∧
    (∀ (t : Tree) (oc : Option Nat) (depth : Nat) (r : Tree × Nat),
      dfsKids t fuel oc depth = .ok r → AllUnset t → AllUnset r.1) := by
  intro fuel
  induction fuel with
  | zero =>
    constructor
    · intro t nid depth r h; exact absurd h (by simp [dfsFIP])
    · intro t oc depth r h hA
      exact absurd h (by simp [dfsKids])
  | succ f2 ih =>
    constructor
    · intro t nid depth r h hA
      rw [dfsFIP] at h
      split at h
      · cases h
        dsimp only
        refine AllUnset_setArrays ?_ _ _
        refine AllUnset_setNode hA ?_ ?_ ?_ ?_
        · rfl
        · rfl
      · refine ih.2 _ _ depth r h ?_
        refine AllUnset_setNode hA ?_ ?_ ?_ ?_
        · rfl
        · rfl
    · intro t oc depth r h hA
      cases oc with
      | none => cases h; exact hA
      | some c =>
        rw [dfsKids] at h
        cases h1 : dfsFIP t f2 c
            ((depth + (U64 + (t.node c).edge_label_end -
              (t.node c).edge_label_start) + 1) % U64) with
        | abort => rw [h1] at h; exact absurd h (by simp [Res.bindR])
        | out => rw [h1] at h; exact absurd h (by simp [Res.bindR])
        | ok r1 =>
          rw [h1] at h
          dsimp only [Res.bindR] at h
          cases h2 : dfsKids r1.1 f2 ((r1.1.node c).right_sibling) depth with
          | abort => rw [h2] at h; exact absurd h (by simp [Res.bindR])
          | out => rw [h2] at h; exact absurd h (by simp [Res.bindR])
          | ok r2 =>
            rw [h2] at h
            dsimp only [Res.bindR] at h
            cases h
            exact ih.2 r1.1 _ depth r2 h2 (ih.1 t c _ r1 h1 hA)

theorem AllUnset_msdPass : ∀ (cnt i : Nat) (t : Tree),
    AllUnset t → AllUnset (msdPassAux i cnt t) := by
  intro cnt
  induction cnt with
  | zero => intro i t hA; exact hA
  | succ c2 ih =>
    intro i t hA
    rw [msdPassAux]
    refine ih (i+1) _ ?_
    split
    · exact fun j => hA j
    · exact hA

theorem AllUnset_initialTree (s : List Nat) : AllUnset (initialTree s) := by
  unfold initialTree
  dsimp only
  refine AllUnset_setNode_self ?_ ?_ ?_ ?_
  · refine AllUnset_create ?_ _ _ _ _
    refine AllUnset_create ?_ _ _ _ _
    intro j
    cases j <;> exact ⟨rfl, rfl⟩
  · rfl

theorem AllUnset_CreateTree (s : List Nat) (fuel : Nat) (t : Tree)
    (h : ST_CreateTree s fuel = .ok t) : AllUnset t := by
  unfold ST_CreateTree at h
  cases h1 : phaseLoop fuel ((initialTree s).length - 2) 2 (initialTree s)
      ((initialTree s).root, 0) 2 false with
  | abort => rw [h1] at h; exact absurd h (by simp [Res.bindR])
  | out => rw [h1] at h; exact absurd h (by simp [Res.bindR])
  | ok r =>
    rw [h1] at h
    dsimp only [Res.bindR] at h
    cases h2 : dfsFIP r.1 fuel r.1.root 0 with
    | abort => rw [h2] at h; exact absurd h (by simp [Res.bindR])
    | out => rw [h2] at h; exact absurd h (by simp [Res.bindR])
    | ok r2 =>
      rw [h2] at h
      dsimp only [Res.bindR] at h
      cases h
      have hA0 := AllUnset_initialTree s
      have hA1 := AllUnset_phaseLoop fuel ((initialTree s).length - 2) 2
        (initialTree s) ((initialTree s).root, 0) 2 false r h1 hA0
      have hA2 := (AllUnset_dfs fuel).1 r.1 r.1.root 0 r2 h2 hA1
      have hA3 := AllUnset_msdPass (r2.1.length - 1) 2 r2.1 hA2
      exact fun j => hA3 j

/-- Claim C9 (amended): right after the post-construction initialization of

dfsForInversePointers inside ST_CreateTree, every node of the tree satisfies
optimisticMinMax(v) at most minMax(v): both fields hold the unset sentinel
there.  The inequality is not preserved by the later annotation updates of
changeAnnotationFromLeaf, as the counterexample shows. -/
theorem optimistic_invariant_after_init (s : List Nat) (fuel : Nat)
    (hok : (ST_CreateTree s fuel).isOk = true) (i : Nat) :
    ((crTree (ST_CreateTree s fuel)).node i).annot.optimisticMinMax ≤
      ((crTree (ST_CreateTree s fuel)).node i).annot.minMax := by
  cases hres : ST_CreateTree s fuel with
  | abort => rw [hres] at hok; exact absurd hok (by simp [Res.isOk])
  | out => rw [hres] at hok; exact absurd hok (by simp [Res.isOk])
  | ok t =>
    dsimp only [crTree]
    have hA := AllUnset_CreateTree s fuel t hres
    rw [(hA i).1, (hA i).2]

theorem optimistic_invariant_after_init_witness :
    ((crTree (ST_CreateTree [97] 8)).node 0).annot.optimisticMinMax ≤
      ((crTree (ST_CreateTree [97] 8)).node 0).annot.minMax :=
  optimistic_invariant_after_init [97] 8 (by decide) 0

end BATLZ
